import Mathlib

/-!
Verification of the nomcc command-channel library (wire codec, frame layer,
connection noncing, sequence reader) against its natural-language
specification.

Python byte strings are modelled as `List Nat` (each element `< 256` for
well-formed data).  Python `str` values are modelled by their UTF-8 code
units, also as `List Nat`; the constructor of `PyVal` records whether a
blob is a `bytes` or a `str` object, which is exactly the distinction the
source's `maybe_decode` / `maybe_encode` helpers manipulate.

External cryptographic and compression libraries (`hashlib`, `hmac`,
`Crypto.Cipher.AES`, `zlib`) are modelled as parameters collected in a
`Crypto` structure; theorems assume only the contracts the source relies
on (digest length, cipher invertibility, compression invertibility).
Base64 and the decimal integer print/parse used by the source are
implemented concretely.
-/

namespace Nomcc

/-- Exception kinds raised by the source.  The constructors mirror
`nomcc.exceptions` plus the Python built-in exceptions that can escape
the modelled code paths (detail strings carried by the exception objects
are elided). -/
inductive Err where
  | unexpectedEnd
  | badForm
  | badVersion
  | badAuth
  | needSecret
  | badSyntax
  | messageTooBig
  | badNoncing
  | notResponse
  | badResponse
  | badSequence
  | appError
  | eofError
  | keyError
  | valueError
  | typeError
  | unicodeError
  | structError
  deriving DecidableEq, Repr

/-- `struct.pack('!I', n)`: 4-byte big-endian encoding.  (The source's
`struct.pack` raises on `n ≥ 2^32`; all sizes handled by the claims stay
far below that bound, which well-formedness hypotheses make explicit.) -/
def u32be (n : Nat) : List Nat :=
  [n / 2 ^ 24 % 256, n / 2 ^ 16 % 256, n / 2 ^ 8 % 256, n % 256]

/-- `struct.unpack('!I', b)` on a 4-byte list. -/
def u32beVal (b : List Nat) : Nat :=
  match b with
  | [a, b, c, d] => ((a * 256 + b) * 256 + c) * 256 + d
  | _ => 0

/-- Strict UTF-8 validity, as enforced by Python's `bytes.decode('utf8')`:
surrogates, overlong encodings and code points above U+10FFFF are
rejected. -/
def utf8Valid : List Nat → Bool
  | [] => true
  | b0 :: rest =>
    if b0 < 0x80 then utf8Valid rest
    else if 0xC2 ≤ b0 ∧ b0 ≤ 0xDF then
      match rest with
      | b1 :: rest2 => decide (0x80 ≤ b1 ∧ b1 ≤ 0xBF) && utf8Valid rest2
      | [] => false
    else if b0 = 0xE0 then
      match rest with
      | b1 :: b2 :: rest2 =>
        decide (0xA0 ≤ b1 ∧ b1 ≤ 0xBF) && decide (0x80 ≤ b2 ∧ b2 ≤ 0xBF) && utf8Valid rest2
      | _ => false
    else if (0xE1 ≤ b0 ∧ b0 ≤ 0xEC) ∨ b0 = 0xEE ∨ b0 = 0xEF then
      match rest with
      | b1 :: b2 :: rest2 =>
        decide (0x80 ≤ b1 ∧ b1 ≤ 0xBF) && decide (0x80 ≤ b2 ∧ b2 ≤ 0xBF) && utf8Valid rest2
      | _ => false
    else if b0 = 0xED then
      match rest with
      | b1 :: b2 :: rest2 =>
        decide (0x80 ≤ b1 ∧ b1 ≤ 0x9F) && decide (0x80 ≤ b2 ∧ b2 ≤ 0xBF) && utf8Valid rest2
      | _ => false
    else if b0 = 0xF0 then
      match rest with
      | b1 :: b2 :: b3 :: rest2 =>
        decide (0x90 ≤ b1 ∧ b1 ≤ 0xBF) && decide (0x80 ≤ b2 ∧ b2 ≤ 0xBF) &&
          decide (0x80 ≤ b3 ∧ b3 ≤ 0xBF) && utf8Valid rest2
      | _ => false
    else if 0xF1 ≤ b0 ∧ b0 ≤ 0xF3 then
      match rest with
      | b1 :: b2 :: b3 :: rest2 =>
        decide (0x80 ≤ b1 ∧ b1 ≤ 0xBF) && decide (0x80 ≤ b2 ∧ b2 ≤ 0xBF) &&
          decide (0x80 ≤ b3 ∧ b3 ≤ 0xBF) && utf8Valid rest2
      | _ => false
    else if b0 = 0xF4 then
      match rest with
      | b1 :: b2 :: b3 :: rest2 =>
        decide (0x80 ≤ b1 ∧ b1 ≤ 0x8F) && decide (0x80 ≤ b2 ∧ b2 ≤ 0xBF) &&
          decide (0x80 ≤ b3 ∧ b3 ≤ 0xBF) && utf8Valid rest2
      | _ => false
    else false

/-- One character of the standard base64 alphabet, by 6-bit index. -/
def b64Char (n : Nat) : Nat :=
  if n < 26 then 65 + n
  else if n < 52 then 97 + (n - 26)
  else if n < 62 then 48 + (n - 52)
  else if n = 62 then 43
  else 47

/-- `base64.b64encode`, standard alphabet with `=` padding (61 is `=`). -/
def b64encode : List Nat → List Nat
  | [] => []
  | [a] => [b64Char (a / 4), b64Char (a % 4 * 16), 61, 61]
  | [a, b] => [b64Char (a / 4), b64Char (a % 4 * 16 + b / 16), b64Char (b % 16 * 4), 61]
  | a :: b :: c :: rest =>
    b64Char (a / 4) :: b64Char (a % 4 * 16 + b / 16) :: b64Char (b % 16 * 4 + c / 64) ::
      b64Char (c % 64) :: b64encode rest

/-- Digit recursion for `decDigits`, structural on a fuel argument so
that the kernel can evaluate it; the fuel-exhausted arm agrees with the
recursive arm whenever the invariant `n ≤ fuel` holds. -/
def decDigitsAux : Nat → Nat → List Nat
  | 0, n => [48 + n % 10]
  | f + 1, n => if n < 10 then [48 + n] else decDigitsAux f (n / 10) ++ [48 + n % 10]

/-- Decimal digit string of a natural number, most significant first;
`str(0)` is `"0"`.  This is `str(n)` for a non-negative Python int. -/
def decDigits (n : Nat) : List Nat := decDigitsAux n n

/-- `str(i)` for a Python int: decimal digits, with a leading `-` (45)
for negative values. -/
def intStr (i : Int) : List Nat :=
  if i < 0 then 45 :: decDigits i.natAbs else decDigits i.toNat

/-- `str(True)` / `str(False)`. -/
def boolStr (b : Bool) : List Nat :=
  if b then [84, 114, 117, 101] else [70, 97, 108, 115, 101]

/-- ASCII whitespace stripped by Python's `int()` conversion. -/
def isPySpace (c : Nat) : Bool :=
  c = 32 || c = 9 || c = 10 || c = 13 || c = 11 || c = 12

/-- Digit run with optional single `_` separators between digits, as
accepted by Python's `int()` literal syntax. -/
def pyDigits : List Nat → Nat → Option Nat
  | [], acc => some acc
  | c :: rest, acc =>
    if 48 ≤ c ∧ c ≤ 57 then pyDigits rest (acc * 10 + (c - 48))
    else if c = 95 then
      match rest with
      | c2 :: _ => if 48 ≤ c2 ∧ c2 ≤ 57 then pyDigits rest acc else none
      | [] => none
    else none

/-- `int(b)` on a byte/character string: strip ASCII whitespace, optional
sign, then decimal digits (with `_` separators). -/
def pyIntOfString (b : List Nat) : Option Int :=
  let core := (b.dropWhile isPySpace).reverse.dropWhile isPySpace |>.reverse
  match core with
  | [] => none
  | c :: rest =>
    let (neg, digits) :=
      if c = 45 then (true, rest) else if c = 43 then (false, rest) else (false, c :: rest)
    match digits with
    | d :: _ =>
      if 48 ≤ d ∧ d ≤ 57 then
        (pyDigits digits 0).map (fun n => if neg then -(n : Int) else (n : Int))
      else none
    | [] => none

/-- A Python value as used by the codec: a `bytes` object, a `str`
object (stored as its UTF-8 code units), a dict (insertion-ordered,
keys are `str` objects stored as UTF-8 code units), a list, or the
native ints/bools the encoder coerces. -/
inductive PyVal where
  | bytes (b : List Nat)
  | str (s : List Nat)
  | table (es : List (List Nat × PyVal))
  | list (vs : List PyVal)
  | int (i : Int)
  | bool (b : Bool)

mutual

/-- Structural equality test for `PyVal` (deriving is unavailable for
nested inductives). -/
def beqVal : PyVal → PyVal → Bool
  | .bytes a, .bytes b => a == b
  | .str a, .str b => a == b
  | .table a, .table b => beqEntries a b
  | .list a, .list b => beqList a b
  | .int a, .int b => a == b
  | .bool a, .bool b => a == b
  | _, _ => false

/-- Equality test for entry lists. -/
def beqEntries : List (List Nat × PyVal) → List (List Nat × PyVal) → Bool
  | [], [] => true
  | (k1, v1) :: r1, (k2, v2) :: r2 => k1 == k2 && beqVal v1 v2 && beqEntries r1 r2
  | _, _ => false

/-- Equality test for value lists. -/
def beqList : List PyVal → List PyVal → Bool
  | [], [] => true
  | v1 :: r1, v2 :: r2 => beqVal v1 v2 && beqList r1 r2
  | _, _ => false

end

mutual

theorem beqVal_iff (a b : PyVal) : beqVal a b = true ↔ a = b := by
  cases a with
  | bytes x => cases b <;> simp [beqVal]
  | str x => cases b <;> simp [beqVal]
  | int x => cases b <;> simp [beqVal]
  | bool x => cases b <;> simp [beqVal]
  | table x =>
    cases b with
    | table y => simpa [beqVal] using beqEntries_iff x y
    | bytes y => simp [beqVal]
    | str y => simp [beqVal]
    | list y => simp [beqVal]
    | int y => simp [beqVal]
    | bool y => simp [beqVal]
  | list x =>
    cases b with
    | list y => simpa [beqVal] using beqList_iff x y
    | bytes y => simp [beqVal]
    | str y => simp [beqVal]
    | table y => simp [beqVal]
    | int y => simp [beqVal]
    | bool y => simp [beqVal]
  termination_by sizeOf a

theorem beqEntries_iff (a b : List (List Nat × PyVal)) :
    beqEntries a b = true ↔ a = b := by
  cases a with
  | nil => cases b <;> simp [beqEntries]
  | cons hd r1 =>
    obtain ⟨k1, v1⟩ := hd
    cases b with
    | nil => simp [beqEntries]
    | cons hd2 r2 =>
      obtain ⟨k2, v2⟩ := hd2
      simp only [beqEntries, Bool.and_eq_true, beq_iff_eq, List.cons.injEq, Prod.mk.injEq]
      rw [beqVal_iff v1 v2, beqEntries_iff r1 r2]
  termination_by sizeOf a

theorem beqList_iff (a b : List PyVal) : beqList a b = true ↔ a = b := by
  cases a with
  | nil => cases b <;> simp [beqList]
  | cons v1 r1 =>
    cases b with
    | nil => simp [beqList]
    | cons v2 r2 =>
      simp only [beqList, Bool.and_eq_true, List.cons.injEq]
      rw [beqVal_iff v1 v2, beqList_iff r1 r2]
  termination_by sizeOf a

end

instance : DecidableEq PyVal := fun a b => decidable_of_iff _ (beqVal_iff a b)

deriving instance DecidableEq for Except

/-- A Python dict of `str` keys, insertion-ordered. -/
abbrev Dict := List (List Nat × PyVal)

/-- Dict lookup (`d.get(k)` / `d[k]`). -/
def dictGet (d : Dict) (k : List Nat) : Option PyVal :=
  match d with
  | [] => none
  | (k0, v0) :: rest => if k0 = k then some v0 else dictGet rest k

/-- Dict membership (`k in d`). -/
def dictMem (d : Dict) (k : List Nat) : Bool :=
  match d with
  | [] => false
  | (k0, _) :: rest => k0 = k || dictMem rest k

/-- `d[k] = v`: update in place if the key exists (keeping its
position), otherwise append. -/
def dictSet (d : Dict) (k : List Nat) (v : PyVal) : Dict :=
  match d with
  | [] => [(k, v)]
  | (k0, v0) :: rest => if k0 = k then (k, v) :: rest else (k0, v0) :: dictSet rest k v

/-- `d.pop(k, None)`: remove the entry for `k` if present. -/
def dictPop (d : Dict) (k : List Nat) : Dict :=
  match d with
  | [] => []
  | (k0, v0) :: rest => if k0 = k then rest else (k0, v0) :: dictPop rest k

/-- Result of decoding one table entry into a dict under construction:
the key keeps the position of its first occurrence while a later value
wins, matching `t[key] = value` iterated over the wire entries. -/
def dictInsertFirst (k : List Nat) (v : PyVal) (d : Dict) : Dict :=
  match dictGet d k with
  | some vLater => (k, vLater) :: dictPop d k
  | none => (k, v) :: d

/-- Python truthiness of the values that can appear in a message. -/
def pyTruthy : PyVal → Bool
  | .bytes b => !b.isEmpty
  | .str s => !s.isEmpty
  | .table es => !es.isEmpty
  | .list vs => !vs.isEmpty
  | .int i => i ≠ 0
  | .bool b => b

/-- Truthiness of `d.get(k)` (with `None` falsy). -/
def pyTruthyOpt : Option PyVal → Bool
  | none => false
  | some v => pyTruthy v

/-- `int(v)` on a message value: parse for `bytes`/`str`, identity for
ints, 0/1 for bools, failure (TypeError) for containers. -/
def pyIntOf : PyVal → Option Int
  | .bytes b => pyIntOfString b
  | .str s => pyIntOfString s
  | .int i => some i
  | .bool b => some (if b then 1 else 0)
  | .table _ => none
  | .list _ => none

/-- `cc_vtype_binarydata`. -/
def cc_vtype_binarydata : Nat := 0x01

/-- `cc_vtype_table`. -/
def cc_vtype_table : Nat := 0x02

/-- `cc_vtype_list`. -/
def cc_vtype_list : Nat := 0x03

/-- `cc_version`. -/
def cc_version : Nat := 0x01

mutual

/-- `_encode`: one value in wire form, `u8 type | u32 length | payload`.
`bytes` pass through, `str` is UTF-8 encoded (`maybe_encode`), other
scalars go through `str()`; tables and lists recurse.  (The source's
`assert l < 256` on key lengths is a well-formedness hypothesis of the
theorems rather than a runtime branch.) -/
def encode_value : PyVal → List Nat
  | .bytes b => cc_vtype_binarydata :: u32be b.length ++ b
  | .str s => cc_vtype_binarydata :: u32be s.length ++ s
  | .table es => cc_vtype_table :: u32be (encode_table es).length ++ encode_table es
  | .list vs => cc_vtype_list :: u32be (encode_list vs).length ++ encode_list vs
  | .int i => cc_vtype_binarydata :: u32be (intStr i).length ++ intStr i
  | .bool b => cc_vtype_binarydata :: u32be (boolStr b).length ++ boolStr b

/-- `_encode_table`: concatenated entries `u8 keylen | key | value`,
where the length byte is the actual key length. -/
def encode_table : List (List Nat × PyVal) → List Nat
  | [] => []
  | (k, v) :: rest => k.length :: (k ++ encode_value v ++ encode_table rest)

/-- List payloads: back-to-back encoded values. -/
def encode_list : List PyVal → List Nat
  | [] => []
  | v :: rest => encode_value v ++ encode_list rest

end

/-- UTF-8 bytes of the Python string constant named by the definition. -/
def ctrlKey : List Nat := [95, 99, 116, 114, 108]

/-- `'_data'`. -/
def dataKey : List Nat := [95, 100, 97, 116, 97]

/-- `'_auth'`. -/
def authKey : List Nat := [95, 97, 117, 116, 104]

/-- `'_comp'`. -/
def compKey : List Nat := [95, 99, 111, 109, 112]

/-- `'_enc'`. -/
def encKey : List Nat := [95, 101, 110, 99]

/-- `'_snon'`. -/
def snonKey : List Nat := [95, 115, 110, 111, 110]

/-- `'_pnon'`. -/
def pnonKey : List Nat := [95, 112, 110, 111, 110]

/-- `'_sseq'`. -/
def sseqKey : List Nat := [95, 115, 115, 101, 113]

/-- `'_rpl'`. -/
def rplKey : List Nat := [95, 114, 112, 108]

/-- `'_evt'`. -/
def evtKey : List Nat := [95, 101, 118, 116]

/-- `'_rseq'`. -/
def rseqKey : List Nat := [95, 114, 115, 101, 113]

/-- `'_seq'`. -/
def seqKey : List Nat := [95, 115, 101, 113]

/-- `'_more'`. -/
def moreKey : List Nat := [95, 109, 111, 114, 101]

/-- `'_batch'`. -/
def batchKey : List Nat := [95, 98, 97, 116, 99, 104]

/-- `'_num'`. -/
def numKey : List Nat := [95, 110, 117, 109]

/-- `'type'`. -/
def typeKey : List Nat := [116, 121, 112, 101]

/-- `'err'`. -/
def errKey : List Nat := [101, 114, 114]

/-- `'hmd5'`. -/
def hmd5Key : List Nat := [104, 109, 100, 53]

/-- `'list'`. -/
def listKey : List Nat := [108, 105, 115, 116]

/-- `'next'`. -/
def nextStr : List Nat := [110, 101, 120, 116]

/-- `'_aes256'`. -/
def aes256Key : List Nat := [95, 97, 101, 115, 50, 53, 54]

/-- `'_aes256z'`. -/
def aes256zKey : List Nat := [95, 97, 101, 115, 50, 53, 54, 122]

mutual

/-- `_decode`: one wire value with header `u8 type | u32 length`.
Returns the parsed value and the number of bytes consumed, `l + 5`; the
subtype records that at least the header is consumed, which the callers
rely on to advance.  `ws` is `want_stringify` (a Python trinary
`None`/`False`/`True`); a blob is passed through `maybe_decode` exactly
when it is `True`. -/
def decode_value (item : List Nat) (ws : Option Bool) :
    Except Err (PyVal × {n : Nat // 5 ≤ n}) :=
  if h5 : item.length < 5 then .error .unexpectedEnd
  else
    let t := item.headD 0
    let l := u32beVal ((item.drop 1).take 4)
    if hl : (item.drop 5).length < l then .error .unexpectedEnd
    else if t = cc_vtype_binarydata then
      let raw := (item.drop 5).take l
      let v := if ws = some true then (if utf8Valid raw then PyVal.str raw else .bytes raw)
               else PyVal.bytes raw
      .ok (v, ⟨l + 5, by omega⟩)
    else if t = cc_vtype_table then
      match decode_table ((item.drop 5).take l) false ws with
      | .error e => .error e
      | .ok tb => .ok (.table tb, ⟨l + 5, by omega⟩)
    else if t = cc_vtype_list then
      match decode_list ((item.drop 5).take l) ws with
      | .error e => .error e
      | .ok vs => .ok (.list vs, ⟨l + 5, by omega⟩)
    else .error .badForm
  termination_by 2 * item.length
  decreasing_by
    all_goals simp [List.length_take, List.length_drop]
    all_goals omega

/-- The `sub_want_stringify` computation of `_decode_table`: the
top-level `_data` entry turns stringification on for its subtree when no
setting is inherited. -/
def table_sub_ws (top : Bool) (kb : List Nat) (ws : Option Bool) : Option Bool :=
  if top && kb = dataKey && ws = none then some true else ws

/-- `_decode_table`: loop over entries `u8 keylen | key | value`; the
key is `decode`d (strict UTF-8).  `t[key] = value` iterated in wire
order is `dictInsertFirst` of the head entry into the dict built from
the remaining entries. -/
def decode_table (item : List Nat) (top : Bool) (ws : Option Bool) :
    Except Err Dict :=
  match hitem : item with
  | [] => .ok []
  | b0 :: tl =>
    if hlen : item.length < b0 + 1 then .error .unexpectedEnd
    else
      let kb := tl.take b0
      if utf8Valid kb then
        match decode_value (item.drop (b0 + 1)) (table_sub_ws top kb ws) with
        | .error e => .error e
        | .ok (v, ⟨n2, hn2⟩) =>
          match decode_table ((item.drop (b0 + 1)).drop n2) top ws with
          | .error e => .error e
          | .ok t => .ok (dictInsertFirst kb v t)
      else .error .unicodeError
  termination_by 2 * item.length + 1
  decreasing_by
    all_goals subst hitem
    all_goals simp [List.length_take, List.length_drop]
    all_goals omega

/-- `_decode_list`: back-to-back values until the slice is exhausted
(`while item != b''`). -/
def decode_list (item : List Nat) (ws : Option Bool) : Except Err (List PyVal) :=
  if hne : item = [] then .ok []
  else
    match decode_value item ws with
    | .error e => .error e
    | .ok (v, ⟨n2, hn2⟩) =>
      match decode_list (item.drop n2) ws with
      | .error e => .error e
      | .ok vs => .ok (v :: vs)
  termination_by 2 * item.length + 1
  decreasing_by
    all_goals have hp := List.length_pos.mpr hne
    all_goals simp [List.length_drop]
    all_goals omega

end

/-- `cc_auth_fixed`: the constant 21-byte prefix of an `_auth` block. -/
def cc_auth_fixed : List Nat :=
  [0x05, 0x5f, 0x61, 0x75, 0x74, 0x68, 0x02, 0x00,
   0x00, 0x00, 0x20, 0x04, 0x68, 0x6d, 0x64, 0x35,
   0x01, 0x00, 0x00, 0x00, 0x16]

/-- `cc_aes256_blocksize`. -/
def cc_aes256_blocksize : Nat := 16

/-- The external primitives used by `wire.py`: `hmac`+`hashlib.md5`,
`hashlib.sha256`, AES-256-CBC from `Crypto.Cipher.AES`, raw-DEFLATE
`zlib` streams, and the random IV drawn in `_encrypt_message`.  They are
parameters of the model; theorems assume only the contracts the source
relies on (stated per theorem). -/
structure Crypto where
  hmacMd5 : List Nat → List Nat → List Nat
  sha256 : List Nat → List Nat
  aesEnc : List Nat → List Nat → List Nat → List Nat
  aesDec : List Nat → List Nat → List Nat → List Nat
  compress : List Nat → List Nat
  decompress : List Nat → List Nat
  iv : List Nat

/-- `_key_from_secret`: SHA-256 of the (already encoded) secret. -/
def key_from_secret (C : Crypto) (secret : List Nat) : List Nat :=
  C.sha256 secret

/-- `_encrypt_message`: zero-pad the message to the AES block size
(`padlen = ((msglen + 0xF) & ~0xF) - msglen`, i.e. round up to a
multiple of 16), then prepend the random IV to the CBC ciphertext. -/
def encrypt_message (C : Crypto) (key msg : List Nat) : List Nat :=
  let padlen := (msg.length + 15) - (msg.length + 15) % 16 - msg.length
  C.iv ++ C.aesEnc key C.iv (msg ++ List.replicate padlen 0)

/-- `_decrypt_message`: split off the 16-byte IV and CBC-decrypt. -/
def decrypt_message (C : Crypto) (key msg : List Nat) : List Nat :=
  C.aesDec key (msg.take cc_aes256_blocksize) (msg.drop cc_aes256_blocksize)

/-- The signature `to_wire`/`from_wire` compute over a payload:
`base64.b64encode(hmac.new(secret, digestmod=md5).update(payload))` with
the trailing `'=='` sliced off. -/
def hmd5_sig (C : Crypto) (secret payload : List Nat) : List Nat :=
  (b64encode (C.hmacMd5 secret payload)).dropLast.dropLast

/-- The encryption step of `to_wire`: when the (already `_comp`-popped)
`_ctrl` carries `_enc`, require a secret, prefix the encoded table with
its `u32` length, optionally DEFLATE-compress, AES-encrypt, and re-wrap
as a single-entry `_aes256z`/`_aes256` table; otherwise pass the body
through. -/
def to_wire_encrypt (C : Crypto) (ctrl2 : Dict) (unsigned : List Nat)
    (want_compress : Option PyVal) (secret : Option (List Nat)) :
    Except Err (List Nat) :=
  if dictMem ctrl2 encKey then
    match secret with
    | none => .error .needSecret
    | some s =>
      let inner :=
        if pyTruthyOpt want_compress then
          u32be unsigned.length ++ C.compress unsigned
        else
          u32be unsigned.length ++ unsigned
      let field_name := if pyTruthyOpt want_compress then aes256zKey else aes256Key
      let key := key_from_secret C s
      let payload := encrypt_message C key inner
      .ok (encode_table [(field_name, .bytes payload)])
  else .ok unsigned

/-- `to_wire(message, secret)`.  The source first mutates `message`:
`message.pop('_auth', None)` and `message['_ctrl'].pop('_comp', None)`
(the latter's value becoming `want_compress`); the pure model carries
the popped dict forward.  A missing `_ctrl` raises `KeyError`, a
non-table `_ctrl` raises a `TypeError`, neither of which the source
catches. -/
def to_wire (C : Crypto) (message : Dict) (secret : Option (List Nat)) :
    Except Err (List Nat) :=
  let m1 := dictPop message authKey
  match dictGet m1 ctrlKey with
  | none => .error .keyError
  | some ctrlVal =>
    match ctrlVal with
    | .table ctrl =>
      let want_compress := dictGet ctrl compKey
      let ctrl2 := dictPop ctrl compKey
      let m2 := dictSet m1 ctrlKey (.table ctrl2)
      let unsigned := encode_table m2
      let version := u32be cc_version
      match to_wire_encrypt C ctrl2 unsigned want_compress secret with
      | .error e => .error e
      | .ok unsigned2 =>
        let res :=
          match secret with
          | some s =>
            let sig := hmd5_sig C s unsigned2
            version ++ encode_table [(authKey, .table [(hmd5Key, .bytes sig)])] ++ unsigned2
          | none => version ++ unsigned2
        .ok (u32be res.length ++ res)
    | _ => .error .typeError

/-- `_basic_syntax_checks(message, maybe_encrypted)`. -/
def basic_syntax_checks (message : Dict) (maybe_encrypted : Bool) :
    Except Err Unit :=
  let encrypted :=
    maybe_encrypted &&
      (pyTruthyOpt (dictGet message aes256Key) || pyTruthyOpt (dictGet message aes256zKey))
  let structural : Except Err Unit :=
    if encrypted then .ok () else
      match dictGet message ctrlKey with
      | none => .error .badForm
      | some ctrlVal =>
        match ctrlVal with
        | .table _ =>
          match dictGet message dataKey with
          | none => .error .badForm
          | some dataVal =>
            match dataVal with
            | .table data =>
              match dictGet data typeKey with
              | none => .error .badForm
              | some ty =>
                match ty with
                | .str _ =>
                  match dictGet data errKey with
                  | some e =>
                    if pyTruthy e then
                      match e with
                      | .str _ => .ok ()
                      | _ => .error .badForm
                    else .ok ()
                  | none => .ok ()
                | _ => .error .badForm
            | _ => .error .badForm
        | _ => .error .badForm
  match structural with
  | .error e => .error e
  | .ok () =>
    match dictGet message authKey with
    | some a =>
      match a with
      | .table _ => .ok ()
      | _ => .error .badForm
    | none => .ok ()

/-- The encrypted tail of `from_wire`: check the ciphertext is a byte
string of block-aligned length, decrypt, strip the inner length prefix,
optionally DEFLATE-decompress, decode the inner table and force
`_ctrl['_enc'] = '1'`. -/
def from_wire_encrypted (C : Crypto) (encrypted_data : PyVal) (compressed : Bool)
    (secret : Option (List Nat)) : Except Err Dict :=
  match encrypted_data with
  | .bytes ed =>
    match secret with
    | none => .error .needSecret
    | some s =>
      if ed.length % cc_aes256_blocksize ≠ 0 then .error .badForm
      else
        let key := key_from_secret C s
        let wire := decrypt_message C key ed
        if wire.length < 4 then .error .structError
        else
          let wirelen := u32beVal (wire.take 4)
          let wire2 := if compressed then C.decompress (wire.drop 4) else wire.drop 4
          if wirelen > wire2.length then .error .unexpectedEnd
          else
            match decode_table (wire2.take wirelen) true none with
            | .error e => .error e
            | .ok table2 =>
              match basic_syntax_checks table2 false with
              | .error e => .error e
              | .ok () =>
                match dictGet table2 ctrlKey with
                | some (.table ctrl2) =>
                  .ok (dictSet table2 ctrlKey
                        (.table (dictSet ctrl2 encKey (.str [49]))))
                | _ => .error .typeError
  | _ => .error .badForm

/-- `from_wire(message, secret)`. -/
def from_wire (C : Crypto) (message : List Nat) (secret : Option (List Nat)) :
    Except Err Dict :=
  if message.length < 4 then .error .unexpectedEnd
  else if u32beVal (message.take 4) ≠ cc_version then .error .badVersion
  else
    let rest := message.drop 4
    match decode_table rest true none with
    | .error e => .error e
    | .ok table =>
      match basic_syntax_checks table true with
      | .error e => .error e
      | .ok () =>
        let has_auth := dictMem table authKey
        match
          (if secret.isSome || has_auth then
            match secret with
            | none => Except.error Err.badAuth
            | some s =>
              if !has_auth then Except.error Err.badAuth
              else if message.length < 43 then Except.error Err.unexpectedEnd
              else
                let auth := rest.take 21
                let msig := (rest.drop 21).take 22
                let payload := rest.drop 43
                let sig := hmd5_sig C s payload
                if auth ≠ cc_auth_fixed then Except.error Err.badAuth
                else if sig ≠ msig then Except.error Err.badAuth
                else Except.ok ()
          else Except.ok ()) with
        | .error e => .error e
        | .ok () =>
          match dictGet table aes256zKey, dictGet table aes256Key with
          | none, none =>
            match dictGet table ctrlKey with
            | some (.table ctrl) =>
              .ok (dictSet table ctrlKey (.table (dictPop ctrl encKey)))
            | _ => .error .typeError
          | some z, _ => from_wire_encrypted C z true secret
          | none, some a => from_wire_encrypted C a false secret

/-- `MAX_WIRE_SIZE` (connection.py). -/
def MAX_WIRE_SIZE : Nat := 4 * 1024 * 1024

/-- `_U63_MAX`. -/
def U63_MAX : Nat := 2 ^ 63 - 1

/-- The mutable fields of a `Connection` that the noncing logic touches.
`σ` is the type of the opaque caller state stored in `outstanding`
(whose keys are the Python ints used as sequence numbers). -/
structure Conn (σ : Type) where
  self_nonce : Nat
  self_next : Nat
  peer_nonce : Nat
  peer_next : Nat
  encrypted : Bool
  compressed : Bool
  outstanding : List (Int × σ)
  deriving DecidableEq

/-- Lookup in the outstanding table. -/
def outGet {σ : Type} (d : List (Int × σ)) (k : Int) : Option σ :=
  match d with
  | [] => none
  | (k0, v0) :: rest => if k0 = k then some v0 else outGet rest k

/-- `self.outstanding[seqno] = state`. -/
def outSet {σ : Type} (d : List (Int × σ)) (k : Int) (v : σ) : List (Int × σ) :=
  match d with
  | [] => [(k, v)]
  | (k0, v0) :: rest => if k0 = k then (k, v) :: rest else (k0, v0) :: outSet rest k v

/-- `del self.outstanding[seqno]`. -/
def outDel {σ : Type} (d : List (Int × σ)) (k : Int) : List (Int × σ) :=
  match d with
  | [] => []
  | (k0, v0) :: rest => if k0 = k then rest else (k0, v0) :: outDel rest k

/-- `_get_nonce_field(_ctrl, field, zero_ok)`: the field must be
present, convert to `int` (any conversion failure is caught and turned
into `BadNoncing`), lie in `[0, 2^63 - 1]`, and be nonzero unless
`zero_ok`. -/
def get_nonce_field (ctrl : Dict) (field : List Nat) (zero_ok : Bool) :
    Except Err Nat :=
  match dictGet ctrl field with
  | none => .error .badNoncing
  | some v =>
    match pyIntOf v with
    | none => .error .badNoncing
    | some value =>
      if value < 0 ∨ value > (U63_MAX : Int) then .error .badNoncing
      else if value = 0 ∧ !zero_ok then .error .badNoncing
      else .ok value.toNat

/-- `Connection._noncify(message, state)`: stamp `_snon`/`_sseq`/`_pnon`
(as decimal byte strings), register a request in `outstanding`, bump
`self_next`, and force the `_enc`/`_comp` markers to the connection
state.  A missing `_ctrl` is created; a non-dict `_ctrl` would raise an
uncaught `TypeError` in the source (item assignment on a non-dict),
modelled as `typeError`. -/
def noncify_stamp {σ : Type} (c : Conn σ) (message : Dict) (state : σ) (ctrl : Dict) :
    Conn σ × Dict :=
  let ctrl1 := dictSet ctrl snonKey (.bytes (decDigits c.self_nonce))
  let ctrl2 := dictSet ctrl1 sseqKey (.bytes (decDigits c.self_next))
  let ctrl3 := dictSet ctrl2 pnonKey (.bytes (decDigits c.peer_nonce))
  let out2 :=
    if !(dictMem ctrl3 rplKey || dictMem ctrl3 evtKey) then
      outSet c.outstanding (c.self_next : Int) state
    else c.outstanding
  let ctrl4 :=
    if c.encrypted then dictSet ctrl3 encKey (.bytes [49])
    else dictPop ctrl3 encKey
  let ctrl5 :=
    if c.compressed then dictSet ctrl4 compKey (.bytes [49])
    else dictPop ctrl4 compKey
  ({ c with self_next := c.self_next + 1, outstanding := out2 },
   dictSet message ctrlKey (.table ctrl5))

/-- `Connection._noncify`: resolve `_ctrl` (created empty when missing,
`TypeError` when not a dict) and apply `noncify_stamp`. -/
def noncify {σ : Type} (c : Conn σ) (message : Dict) (state : σ) :
    Except Err (Conn σ × Dict) :=
  match dictGet message ctrlKey with
  | some (.table ctrl) => .ok (noncify_stamp c message state ctrl)
  | some _ => .error .typeError
  | none => .ok (noncify_stamp c message state [])

/-- The `_pnon`/`_snon`/`_sseq` validation of `Connection._check`:
`_pnon` must equal `self_nonce`; `_snon` must equal `peer_nonce` unless
it is still zero, in which case it is learned; `_sseq` must equal
`peer_next` unless it is still zero, in which case it is learned.
Returns the (possibly learned) peer nonce and the matched sequence
number. -/
def check_nonces {σ : Type} (c : Conn σ) (ctrl : Dict) : Except Err (Nat × Nat) :=
  match get_nonce_field ctrl pnonKey false with
  | .error e => .error e
  | .ok pnon =>
    if pnon ≠ c.self_nonce then .error .badNoncing
    else
      match get_nonce_field ctrl snonKey false with
      | .error e => .error e
      | .ok snon =>
        match (if c.peer_nonce = 0 then Except.ok snon
               else if snon ≠ c.peer_nonce then Except.error Err.badNoncing
               else Except.ok c.peer_nonce) with
        | .error e => .error e
        | .ok pn2 =>
          match get_nonce_field ctrl sseqKey false with
          | .error e => .error e
          | .ok sseq =>
            match (if c.peer_next = 0 then Except.ok sseq
                   else if sseq ≠ c.peer_next then Except.error Err.badNoncing
                   else Except.ok c.peer_next) with
            | .error e => .error e
            | .ok px2 => .ok (pn2, px2)

/-- The response tail of `Connection._check`: look up
`int(_ctrl['_rseq'])` in `outstanding`; a match is removed and its state
returned, a miss raises `BadNoncing` (a missing `_rseq` is an uncaught
`KeyError`, an unparsable one an uncaught `ValueError`). -/
def check_rseq {σ : Type} (c2 : Conn σ) (ctrl : Dict) :
    Except Err (Conn σ × Option σ) :=
  match dictGet ctrl rseqKey with
  | none => .error .keyError
  | some rv =>
    match pyIntOf rv with
    | none => .error .valueError
    | some rseq =>
      match outGet c2.outstanding rseq with
      | some st => .ok ({ c2 with outstanding := outDel c2.outstanding rseq }, some st)
      | none => .error .badNoncing

/-- `Connection._check(message)`: on an encrypted connection the
message must carry `_enc`; validate the nonce fields (learning
`peer_nonce`/`peer_next` when still zero), bump `peer_next`, and for a
response (`_rpl` present) pop the outstanding entry.  Returns the
updated connection and the popped state (`none` for requests and
events, as the source returns `None`). -/
def check {σ : Type} (c : Conn σ) (message : Dict) :
    Except Err (Conn σ × Option σ) :=
  match dictGet message ctrlKey with
  | none => .error .keyError
  | some (.table ctrl) =>
    if c.encrypted ∧ ¬dictMem ctrl encKey then .error .badNoncing
    else
      match check_nonces c ctrl with
      | .error e => .error e
      | .ok (pn2, px2) =>
        let c2 := { c with peer_nonce := pn2, peer_next := px2 + 1 }
        if dictMem ctrl rplKey then check_rseq c2 ctrl else .ok (c2, none)
  | some _ => .error .typeError

/-- `Connection.write(message, state)` up to serialization: the message
actually sent on the wire is `to_wire` of the noncified message; the
noncified dict is what carries the claimed `_snon`/`_sseq`/`_pnon`
stamps.  `connWrites` runs a sequence of writes and returns the final
connection state together with the noncified messages in order. -/
def connWrites {σ : Type} (c : Conn σ) :
    List (Dict × σ) → Except Err (Conn σ × List Dict)
  | [] => .ok (c, [])
  | (m, st) :: rest =>
    match noncify c m st with
    | .error e => .error e
    | .ok (c2, m2) =>
      match connWrites c2 rest with
      | .error e => .error e
      | .ok (c3, sent) => .ok (c3, m2 :: sent)

/-- `Connection._read_all(count)` over a modelled input stream: take
`count` bytes or fail with `EOFError`. -/
def read_all (stream : List Nat) (count : Nat) :
    Except Err (List Nat × List Nat) :=
  if stream.length < count then .error .eofError
  else .ok (stream.take count, stream.drop count)

/-- `Connection._read()`: read the 4-byte length prefix, reject
oversized frames before reading the body, then read the body and decode
it with `from_wire`.  Returns the message and the unread remainder of
the stream. -/
def conn_read (C : Crypto) (stream : List Nat) (secret : Option (List Nat)) :
    Except Err (Dict × List Nat) :=
  match read_all stream 4 with
  | .error e => .error e
  | .ok (ldata, s1) =>
    let l := u32beVal ldata
    if l > MAX_WIRE_SIZE then .error .messageTooBig
    else
      match read_all s1 l with
      | .error e => .error e
      | .ok (wire, s2) =>
        match from_wire C wire secret with
        | .error e => .error e
        | .ok m => .ok (m, s2)

instance : BEq PyVal := ⟨beqVal⟩

/-- `len(v)` for the Python values that support it. -/
def pyLen : PyVal → Option Nat
  | .table es => some es.length
  | .list vs => some vs.length
  | .bytes b => some b.length
  | .str s => some s.length
  | .int _ => none
  | .bool _ => none

/-- `key in v` for a `str` key: dict key lookup, substring test on a
`str`, element test on a list; `str in bytes` and membership on
ints/bools raise `TypeError`. -/
def pyContains (v : PyVal) (key : List Nat) : Except Err Bool :=
  match v with
  | .table es => .ok (dictMem es key)
  | .str s => .ok (decide (List.IsInfix key s))
  | .list vs => .ok (vs.contains (.str key))
  | .bytes _ => .error .typeError
  | .int _ => .error .typeError
  | .bool _ => .error .typeError

/-- The mutable state of a `sequence.Reader`.  `datas` holds the queued
batch elements in delivery order (the source stores the reversed list
and pops from the end, which is the same queue). -/
structure RState where
  request : Dict
  first : Bool
  done : Bool
  datas : List PyVal
  num : Nat
  raise_error : Bool
  seq : Option PyVal
  batch : Bool
  deriving DecidableEq

/-- `Reader.__init__` (after the request has been coerced to a dict). -/
def readerInit (request : Dict) (num : Nat) (raise_error : Bool) : RState :=
  { request := request, first := true, done := false, datas := [],
    num := num, raise_error := raise_error, seq := none, batch := false }

/-- Outcome of one `Reader.__next__` call: a yielded `_data`,
`StopIteration`, or a raised exception. -/
inductive NextRes where
  | yields (d : PyVal)
  | stop
  | fail (e : Err)
  deriving DecidableEq

/-- The tail of `__next__` shared by all branches:
`if self.done and len(_data) == 1: raise StopIteration` then
`if self.raise_error and 'err' in _data: raise Error(...)`. -/
def readerFinish (r : RState) (d : PyVal) : NextRes × RState :=
  let errCheck : NextRes × RState :=
    if r.raise_error then
      match pyContains d errKey with
      | .error e => (.fail e, r)
      | .ok b => if b then (.fail .appError, r) else (.yields d, r)
    else (.yields d, r)
  if r.done then
    match pyLen d with
    | none => (.fail .typeError, r)
    | some n => if n = 1 then (.stop, r) else errCheck
  else errCheck

/-- The follow-up request built by the non-first branch of `__next__`:
`{'_ctrl': {'_seq': seq}, '_data': {'type': 'next'}}`, plus
`_ctrl['_num'] = self._num` when batching.  (`seq` is always set by the
time this request is built; the `getD` default is unreachable.) -/
def readerNextRequest (r : RState) : Dict :=
  let ctrl0 := [(seqKey, r.seq.getD (.str [78, 111, 110, 101]))]
  let ctrl := if r.batch then dictSet ctrl0 numKey (.int (r.num : Int)) else ctrl0
  [(ctrlKey, .table ctrl), (dataKey, .table [(typeKey, .str nextStr)])]

/-- `Reader.__next__`, with `session.tell` abstracted as the oracle
`tell` mapping the sent request to the peer's response.  Mirrors
sequence.py: drain `datas`, stop when `done`, otherwise send the first
or follow-up request, track `_batch`/`_more`/`_seq`, unpack batched
`list` payloads, and finish with the shared suppression/err checks. -/
def readerNext (tell : Dict → Dict) (r : RState) : NextRes × RState :=
  match r.datas with
  | d :: restDatas => (.yields d, { r with datas := restDatas })
  | [] =>
    if r.done then (.stop, r)
    else if r.first then
      let r1 := { r with first := false }
      let response := tell r.request
      match dictGet response ctrlKey with
      | some (.table ctrl) =>
        let r2 :=
          if dictMem ctrl batchKey && decide (r1.num > 0) then { r1 with batch := true }
          else r1
        match
          (if dictMem ctrl moreKey then
            match dictGet ctrl seqKey with
            | some s => Except.ok { r2 with seq := some s }
            | none => Except.error Err.badSequence
          else Except.ok { r2 with done := true }) with
        | .error e => (.fail e, r2)
        | .ok r3 =>
          match dictGet response dataKey with
          | some d => readerFinish r3 d
          | none => (.fail .keyError, r3)
      | some _ => (.fail .typeError, r1)
      | none => (.fail .keyError, r1)
    else
      let response := tell (readerNextRequest r)
      match dictGet response ctrlKey with
      | some (.table ctrl) =>
        let r2 := if !dictMem ctrl moreKey then { r with done := true } else r
        match dictGet response dataKey with
        | some dataVal =>
          match
            (if r2.batch then
              match pyContains dataVal listKey with
              | .error e => Except.error e
              | .ok b => Except.ok b
            else Except.ok false) with
          | .error e => (.fail e, r2)
          | .ok inBatch =>
            if inBatch then
              match dataVal with
              | .table data =>
                match dictGet data listKey with
                | some (.list l) =>
                  match l with
                  | [] => (.stop, { r2 with datas := [] })
                  | d :: restL => readerFinish { r2 with datas := restL } d
                | some _ => (.fail .badSequence, r2)
                | none => (.fail .keyError, r2)
              | _ => (.fail .typeError, r2)
            else readerFinish r2 dataVal
        | none => (.fail .keyError, r2)
      | some _ => (.fail .typeError, r)
      | none => (.fail .keyError, r)

/-- Encoder/decoder key contract: representable length byte
(`assert l < 256` in `_encode_table`) and strict UTF-8 (the decoder's
`decode` call). -/
def keyOk (k : List Nat) : Bool :=
  decide (k.length < 256) && utf8Valid k

mutual

/-- Round-trippable values, relative to the position flag `inData`
(inside the stringified top-level `_data` subtree or not).  Outside
`_data` blobs must be `bytes` (the decoder never stringifies there);
inside, a blob survives exactly when it is a valid-UTF-8 `str` or a
non-UTF-8 `bytes` (`maybe_decode`).  Ints and bools are one-way
coercions and never round-trip.  Size bounds make `struct.pack('!I')`
exact. -/
def wf_value (inData : Bool) : PyVal → Bool
  | .bytes b => decide (b.length < 2 ^ 32) && (!inData || !utf8Valid b)
  | .str s => inData && utf8Valid s && decide (s.length < 2 ^ 32)
  | .table es => decide ((encode_table es).length < 2 ^ 32) && wf_entries inData es
  | .list vs => decide ((encode_list vs).length < 2 ^ 32) && wf_list inData vs
  | .int _ => false
  | .bool _ => false

/-- Entry lists with valid, pairwise-distinct keys and wf values. -/
def wf_entries (inData : Bool) : List (List Nat × PyVal) → Bool
  | [] => true
  | (k, v) :: rest =>
    keyOk k && !dictMem rest k && wf_value inData v && wf_entries inData rest

/-- Value lists of wf values. -/
def wf_list (inData : Bool) : List PyVal → Bool
  | [] => true
  | v :: rest => wf_value inData v && wf_list inData rest

end

/-- Top-level round-trippable message body: every entry is wf with the
`_data` entry (and only it) in stringified position. -/
def wf_top : Dict → Bool
  | [] => true
  | (k, v) :: rest =>
    keyOk k && !dictMem rest k && wf_value (k = dataKey) v && wf_top rest

/-- Structural message shape required by `to_wire` and
`_basic_syntax_checks`: a `_ctrl` table, a `_data` table whose `type` is
a `str`, an `err` that is a `str` or falsy if present, and no top-level
`_aes256`/`_aes256z` entries (which would make an unencrypted frame look
encrypted on decode). -/
def message_shape (m : Dict) : Bool :=
  (match dictGet m ctrlKey with | some (.table _) => true | _ => false) &&
  (match dictGet m dataKey with
   | some (.table data) =>
     (match dictGet data typeKey with | some (.str _) => true | _ => false) &&
     (match dictGet data errKey with
      | some e => !pyTruthy e || (match e with | .str _ => true | _ => false)
      | none => true)
   | _ => false) &&
  !dictMem m aes256Key && !dictMem m aes256zKey

/-- A well-formed message for the frame round trip. -/
def wf_message (m : Dict) : Bool :=
  wf_top m && message_shape m

/-- The destructive normalization `to_wire` applies to its argument
before encoding anything: `message.pop('_auth', None)` and
`message['_ctrl'].pop('_comp', None)`. -/
def prep_message (m : Dict) : Dict :=
  let m1 := dictPop m authKey
  match dictGet m1 ctrlKey with
  | some (.table ctrl) => dictSet m1 ctrlKey (.table (dictPop ctrl compKey))
  | _ => m1

/-- `from_wire(to_wire(m, s), s)` as exercised by a connection: the
4-byte length prefix produced by `to_wire` is consumed by
`Connection._read`, so `from_wire` sees the frame starting at the
version word. -/
def round_trip (C : Crypto) (m : Dict) (secret : Option (List Nat)) :
    Except Err Dict :=
  match to_wire C m secret with
  | .error e => .error e
  | .ok w => from_wire C (w.drop 4) secret

/-- What the round trip actually returns on a well-formed message (the
amended claim C2): `to_wire`'s `_auth`/`_comp` removal, then on the
encrypted path `_ctrl['_enc']` is forced to the `str` `'1'`, while on
the signed unencrypted path the decoded frame keeps the `_auth`
signature block as its first entry. -/
def post_decode (C : Crypto) (m : Dict) (secret : Option (List Nat)) : Dict :=
  let m2 := prep_message m
  match dictGet m2 ctrlKey with
  | some (.table ctrl2) =>
    if dictMem ctrl2 encKey then
      dictSet m2 ctrlKey (.table (dictSet ctrl2 encKey (.str [49])))
    else
      match secret with
      | none => m2
      | some s =>
        (authKey, .table [(hmd5Key, .bytes (hmd5_sig C s (encode_table m2)))]) :: m2
  | _ => m2

/-- A concrete instantiation of the external primitives satisfying every
contract the theorems assume (identity cipher and compression, constant
16-byte digest and IV); used to evaluate the model at concrete inputs. -/
def trivCrypto : Crypto where
  hmacMd5 := fun _ _ => List.replicate 16 0
  sha256 := fun s => s
  aesEnc := fun _ _ x => x
  aesDec := fun _ _ x => x
  compress := fun x => x
  decompress := fun x => x
  iv := List.replicate 16 7

/-- A message whose `_ctrl` carrys a `_comp` hint (as a connection with
compression negotiated produces). -/
def compHintMsg : Dict :=
  [(ctrlKey, .table [(compKey, .bytes [49]), (snonKey, .bytes [49])]),
   (dataKey, .table [(typeKey, .str [97])])]

/-- A message holding an `n`-byte blob under `_data`. -/
def blobMsg (n : Nat) : Dict :=
  [(ctrlKey, .table []),
   (dataKey, .table [(typeKey, .str [97]),
                     ([98], .bytes (List.replicate n 0))])]

/-- A message whose encoded frame exceeds `MAX_WIRE_SIZE` (a 5 MiB blob
under `_data`). -/
def bigMsg : Dict := blobMsg (5 * 1024 * 1024)

/-- A session oracle for the sequence reader: the first request gets a
batched `_more` response with `_seq` `'7'`; every follow-up (recognised
by its `_ctrl`) gets a response that still carries `_more` but whose
batch `list` is empty. -/
def seqTellEmptyBatch (req : Dict) : Dict :=
  match dictGet req ctrlKey with
  | some _ =>
    [(ctrlKey, .table [(moreKey, .bytes [49])]),
     (dataKey, .table [(typeKey, .str nextStr), (listKey, .list [])])]
  | none =>
    [(ctrlKey, .table [(moreKey, .bytes [49]), (batchKey, .bytes [49]),
                       (seqKey, .bytes [55])]),
     (dataKey, .table [(typeKey, .str [108]), ([107], .str [118])])]

/-- The reader driven by `seqTellEmptyBatch`: request type `'l'`, batch
size 3. -/
def seqReader0 : RState :=
  readerInit [(dataKey, .table [(typeKey, .str [108])])] 3 false

/-- A freshly constructed connection (client side, nonce 5): as in
`Connection.__init__` with `want_read` false, `self_next = 1`,
`peer_nonce = peer_next = 0`, cleartext. -/
def connW0 : Conn Unit :=
  { self_nonce := 5, self_next := 1, peer_nonce := 0, peer_next := 0,
    encrypted := false, compressed := false, outstanding := [] }

/-- Two concrete requests to write. -/
def writeOps : List (Dict × Unit) :=
  [([(dataKey, PyVal.table [(typeKey, PyVal.str [97])])], ()),
   ([(dataKey, PyVal.table [(typeKey, PyVal.str [98])])], ())]

/-- The connection state after writing `writeOps` from `connW0`. -/
def cNW : Conn Unit :=
  { self_nonce := 5, self_next := 3, peer_nonce := 0, peer_next := 0,
    encrypted := false, compressed := false, outstanding := [(1, ()), (2, ())] }

/-- The noncified messages produced by writing `writeOps` from `connW0`. -/
def sentW : List Dict :=
  [[(dataKey, PyVal.table [(typeKey, PyVal.str [97])]),
    (ctrlKey, PyVal.table [(snonKey, PyVal.bytes [53]),
      (sseqKey, PyVal.bytes [49]), (pnonKey, PyVal.bytes [48])])],
   [(dataKey, PyVal.table [(typeKey, PyVal.str [98])]),
    (ctrlKey, PyVal.table [(snonKey, PyVal.bytes [53]),
      (sseqKey, PyVal.bytes [50]), (pnonKey, PyVal.bytes [48])])]]

/-- A concrete accepted incoming message: `_pnon` matches `self_nonce`
5, `_snon` and `_sseq` are learned. -/
def c4ctrl : Dict :=
  [(pnonKey, PyVal.bytes [53]), (snonKey, PyVal.bytes [57]),
   (sseqKey, PyVal.bytes [49])]

def c4msg : Dict := [(ctrlKey, PyVal.table c4ctrl)]

/-- No key occurs twice in the outstanding table (true of every table
built by repeated `outSet` at increasing `self_next`). -/
def outKeysDistinct {σ : Type} : List (Int × σ) → Bool
  | [] => true
  | (k, _) :: rest => (outGet rest k).isNone && outKeysDistinct rest

/-- A connection holding two outstanding requests, and a reply to the
first of them. -/
def c5conn : Conn Unit :=
  { self_nonce := 5, self_next := 3, peer_nonce := 9, peer_next := 2,
    encrypted := false, compressed := false, outstanding := [(1, ()), (2, ())] }

def c5ctrl : Dict :=
  [(rplKey, PyVal.bytes [49]), (rseqKey, PyVal.bytes [49])]

/-- `c5conn` after the matched reply is consumed. -/
def c5conn2 : Conn Unit :=
  { self_nonce := 5, self_next := 3, peer_nonce := 9, peer_next := 2,
    encrypted := false, compressed := false, outstanding := [(2, ())] }

/-- A peer answering every follow-up with no `_more` and a singleton
`_data`: the suppression case. -/
def c9tell : Dict → Dict := fun _ =>
  [(ctrlKey, PyVal.table []), (dataKey, PyVal.table [(typeKey, PyVal.str [110])])]

/-- A non-first, non-batched reader with nothing queued. -/
def c9reader : RState :=
  { request := [(dataKey, PyVal.table [(typeKey, PyVal.str [108])])],
    first := false, done := false, datas := [], num := 0,
    raise_error := false, seq := some (PyVal.bytes [55]), batch := false }

/-- No key occurs twice (every real Python dict satisfies this). -/
def dictKeysDistinct : Dict → Bool
  | [] => true
  | (k, _) :: rest => !dictMem rest k && dictKeysDistinct rest

/-- A message carrying a stale `_auth` entry and a `_comp` hint. -/
def c10ctrl : Dict := [(compKey, PyVal.bytes [49]), (snonKey, PyVal.bytes [53])]

def c10msg : Dict :=
  [(authKey, PyVal.table []), (ctrlKey, PyVal.table c10ctrl),
   (dataKey, PyVal.table [(typeKey, PyVal.str [97])])]

/-- A valid cleartext frame body and its frame (after the length word),
carrying no `_auth` block. -/
def c6body : Dict :=
  [(ctrlKey, PyVal.table []), (dataKey, PyVal.table [(typeKey, PyVal.str [97])])]

def c6msg : List Nat := u32be cc_version ++ encode_table c6body

/-- A crypto instantiation whose compression really is injective and
self-terminating (shift every byte up, end with a zero sentinel), so the
`decompress (compress x ++ junk) = x` contract of zlib holds for all
inputs; ciphers are identities and digests constant, as in
`trivCrypto`. -/
def c2Crypto : Crypto where
  hmacMd5 := fun _ _ => List.replicate 16 0
  sha256 := fun s => s
  aesEnc := fun _ _ x => x
  aesDec := fun _ _ x => x
  compress := fun x => (x.map (fun b => b + 1)) ++ [0]
  decompress := fun y => (y.takeWhile (fun b => decide (b ≠ 0))).map (fun b => b - 1)
  iv := List.replicate 16 7

/-- A message with encryption and compression negotiated. -/
def encCompMsg : Dict :=
  [(ctrlKey, PyVal.table [(encKey, PyVal.bytes [49]), (compKey, PyVal.bytes [49])]),
   (dataKey, PyVal.table [(typeKey, PyVal.str [97])])]

/-!  Theorems.  -/

theorem u32be_length (n : Nat) : (u32be n).length = 4 := rfl

theorem u32beVal_u32be (n : Nat) (h : n < 2 ^ 32) : u32beVal (u32be n) = n := by
  simp only [u32be, u32beVal]
  omega

theorem b64encode_length (x : List Nat) :
    (b64encode x).length = (x.length + 2) / 3 * 4 := by
  induction x using b64encode.induct
  all_goals simp [b64encode, *]
  all_goals omega

theorem encode_value_length (v : PyVal) : 5 ≤ (encode_value v).length := by
  cases v
  all_goals simp [encode_value, u32be]

theorem encode_table_append (a b : List (List Nat × PyVal)) :
    encode_table (a ++ b) = encode_table a ++ encode_table b := by
  induction a with
  | nil => simp [encode_table]
  | cons hd rest ih =>
    obtain ⟨k, v⟩ := hd
    simp [encode_table, ih]

theorem dictGet_eq_none_of_not_mem (d : Dict) (k : List Nat)
    (h : dictMem d k = false) : dictGet d k = none := by
  induction d with
  | nil => simp [dictGet]
  | cons hd rest ih =>
    obtain ⟨k0, v0⟩ := hd
    simp [dictMem] at h
    simp [dictGet, h.1, ih h.2]

theorem decode_value_header (t : Nat) (p extra : List Nat) (ws : Option Bool)
    (hp : p.length < 2 ^ 32) :
    decode_value (t :: u32be p.length ++ (p ++ extra)) ws =
      (if t = cc_vtype_binarydata then
        .ok ((if ws = some true then (if utf8Valid p then PyVal.str p else .bytes p)
              else PyVal.bytes p), ⟨p.length + 5, by omega⟩)
      else if t = cc_vtype_table then
        match decode_table p false ws with
        | .error e => .error e
        | .ok tb => .ok (.table tb, ⟨p.length + 5, by omega⟩)
      else if t = cc_vtype_list then
        match decode_list p ws with
        | .error e => .error e
        | .ok vs => .ok (.list vs, ⟨p.length + 5, by omega⟩)
      else .error .badForm) := by
  have hL : (t :: u32be p.length ++ (p ++ extra)).length
      = 5 + p.length + extra.length := by
    simp [u32be]
    omega
  have hd1 : (t :: u32be p.length ++ (p ++ extra)).headD 0 = t := rfl
  have hd5 : (t :: u32be p.length ++ (p ++ extra)).drop 5 = p ++ extra := by
    have : (t :: u32be p.length ++ (p ++ extra)).drop 5
        = (u32be p.length ++ (p ++ extra)).drop 4 := rfl
    rw [this, List.drop_left' (u32be_length _)]
  have hd14 : ((t :: u32be p.length ++ (p ++ extra)).drop 1).take 4 = u32be p.length := by
    have : (t :: u32be p.length ++ (p ++ extra)).drop 1
        = u32be p.length ++ (p ++ extra) := rfl
    rw [this, List.take_left' (u32be_length _)]
  rw [decode_value]
  rw [dif_neg (by omega)]
  simp only [hd1, hd5, hd14, u32beVal_u32be _ hp]
  rw [dif_neg (by simp)]
  simp only [List.take_left' (rfl : p.length = p.length)]

theorem ok_pair_ext {v : PyVal} {A B : Nat} (hA : 5 ≤ A) (hB : 5 ≤ B) (h : A = B) :
    (Except.ok (v, ⟨A, hA⟩) : Except Err (PyVal × {n : Nat // 5 ≤ n})) = .ok (v, ⟨B, hB⟩) := by
  subst h
  rfl

mutual

theorem decode_encode_value (d : Bool) (ws : Option Bool) :
    ∀ (v : PyVal) (extra : List Nat), wf_value d v = true →
      ((ws = some true) ↔ (d = true)) →
      decode_value (encode_value v ++ extra) ws =
        .ok (v, ⟨(encode_value v).length, encode_value_length v⟩)
  | .bytes b, extra, hwf, hws => by
    simp only [wf_value, Bool.and_eq_true, decide_eq_true_eq, Bool.or_eq_true,
      Bool.not_eq_true', Bool.not_eq_true] at hwf
    obtain ⟨hb, hmix⟩ := hwf
    have he : encode_value (PyVal.bytes b) ++ extra
        = cc_vtype_binarydata :: u32be b.length ++ (b ++ extra) := by
      simp [encode_value]
    rw [he, decode_value_header _ _ _ _ hb, if_pos rfl]
    have hv : (if ws = some true then (if utf8Valid b then PyVal.str b else .bytes b)
        else PyVal.bytes b) = PyVal.bytes b := by
      cases d with
      | false =>
        rw [if_neg]
        intro hcl
        exact Bool.false_ne_true (hws.mp hcl)
      | true =>
        rw [if_pos (hws.mpr rfl)]
        rcases hmix with h | h
        · exact absurd h (by simp)
        · simp [h]
    rw [hv]
    exact ok_pair_ext _ _ (by
      simp only [encode_value, List.length_cons, List.length_append, u32be_length]
      omega)
  | .str s, extra, hwf, hws => by
    simp only [wf_value, Bool.and_eq_true, decide_eq_true_eq] at hwf
    obtain ⟨⟨hd1, hs⟩, hslen⟩ := hwf
    have he : encode_value (PyVal.str s) ++ extra
        = cc_vtype_binarydata :: u32be s.length ++ (s ++ extra) := by
      simp [encode_value]
    rw [he, decode_value_header _ _ _ _ hslen, if_pos rfl]
    rw [if_pos (hws.mpr hd1), if_pos hs]
    exact ok_pair_ext _ _ (by
      simp only [encode_value, List.length_cons, List.length_append, u32be_length]
      omega)
  | .table es, extra, hwf, hws => by
    simp only [wf_value, Bool.and_eq_true, decide_eq_true_eq] at hwf
    obtain ⟨hlen, hes⟩ := hwf
    have he : encode_value (PyVal.table es) ++ extra
        = cc_vtype_table :: u32be (encode_table es).length ++ (encode_table es ++ extra) := by
      simp [encode_value]
    rw [he, decode_value_header _ _ _ _ hlen]
    rw [if_neg (by decide), if_pos rfl]
    rw [decode_encode_entries d ws es hes hws]
    exact ok_pair_ext _ _ (by
      simp only [encode_value, List.length_cons, List.length_append, u32be_length]
      omega)
  | .list vs, extra, hwf, hws => by
    simp only [wf_value, Bool.and_eq_true, decide_eq_true_eq] at hwf
    obtain ⟨hlen, hvs⟩ := hwf
    have he : encode_value (PyVal.list vs) ++ extra
        = cc_vtype_list :: u32be (encode_list vs).length ++ (encode_list vs ++ extra) := by
      simp [encode_value]
    rw [he, decode_value_header _ _ _ _ hlen]
    rw [if_neg (by decide), if_neg (by decide), if_pos rfl]
    rw [decode_encode_list d ws vs hvs hws]
    exact ok_pair_ext _ _ (by
      simp only [encode_value, List.length_cons, List.length_append, u32be_length]
      omega)
  | .int i, extra, hwf, hws => by simp [wf_value] at hwf
  | .bool b, extra, hwf, hws => by simp [wf_value] at hwf
  termination_by v extra hwf hws => sizeOf v

theorem decode_encode_entries (d : Bool) (ws : Option Bool) :
    ∀ (es : List (List Nat × PyVal)), wf_entries d es = true →
      ((ws = some true) ↔ (d = true)) →
      decode_table (encode_table es) false ws = .ok es
  | [], _, _ => by simp [encode_table, decode_table]
  | (k, v) :: rest, hwf, hws => by
    simp only [wf_entries, Bool.and_eq_true, keyOk, decide_eq_true_eq,
      Bool.not_eq_true'] at hwf
    obtain ⟨⟨⟨⟨hk256, hkutf⟩, hnm⟩, hv⟩, hrest⟩ := hwf
    rw [encode_table]
    rw [decode_table]
    have hL : (k.length :: (k ++ encode_value v ++ encode_table rest)).length
        = 1 + k.length + (encode_value v).length + (encode_table rest).length := by
      simp [List.length_append]
      omega
    rw [dif_neg (by rw [hL]; omega)]
    have hkb : (k ++ encode_value v ++ encode_table rest).take k.length = k := by
      rw [List.append_assoc, List.take_left' rfl]
    rw [hkb, if_pos hkutf]
    have hdrop : (k.length :: (k ++ encode_value v ++ encode_table rest)).drop (k.length + 1)
        = encode_value v ++ encode_table rest := by
      rw [List.drop_succ_cons, List.append_assoc, List.drop_left' rfl]
    rw [hdrop]
    rw [show table_sub_ws false k ws = ws by simp [table_sub_ws]]
    rw [decode_encode_value d ws v (encode_table rest) hv hws]
    show (match decode_table
            (List.drop (encode_value v).length (encode_value v ++ encode_table rest))
            false ws with
          | Except.error e => Except.error e
          | Except.ok t => Except.ok (dictInsertFirst k v t)) = Except.ok ((k, v) :: rest)
    rw [List.drop_left, decode_encode_entries d ws rest hrest hws]
    show Except.ok (dictInsertFirst k v rest) = Except.ok ((k, v) :: rest)
    rw [dictInsertFirst, dictGet_eq_none_of_not_mem rest k hnm]
  termination_by es hwf hws => sizeOf es

theorem decode_encode_list (d : Bool) (ws : Option Bool) :
    ∀ (vs : List PyVal), wf_list d vs = true →
      ((ws = some true) ↔ (d = true)) →
      decode_list (encode_list vs) ws = .ok vs
  | [], _, _ => by simp [encode_list, decode_list]
  | v :: rest, hwf, hws => by
    simp only [wf_list, Bool.and_eq_true] at hwf
    obtain ⟨hv, hrest⟩ := hwf
    rw [encode_list, decode_list]
    rw [dif_neg (by
      intro hcl
      have h5 := encode_value_length v
      have h0 : (encode_value v ++ encode_list rest).length = 0 := by rw [hcl]; rfl
      rw [List.length_append] at h0
      omega)]
    rw [decode_encode_value d ws v (encode_list rest) hv hws]
    show (match decode_list
            (List.drop (encode_value v).length (encode_value v ++ encode_list rest)) ws with
          | Except.error e => Except.error e
          | Except.ok vs2 => Except.ok (v :: vs2)) = Except.ok (v :: rest)
    rw [List.drop_left, decode_encode_list d ws rest hrest hws]
  termination_by vs hwf hws => sizeOf vs

end

theorem decDigitsAux_irrel : ∀ n f1 f2, n ≤ f1 → n ≤ f2 →
    decDigitsAux f1 n = decDigitsAux f2 n := by
  intro n
  induction n using Nat.strong_induction_on with
  | _ n ih =>
    intro f1 f2 h1 h2
    match f1, f2 with
    | 0, 0 => rfl
    | 0, b + 1 =>
      have hn : n = 0 := by omega
      subst hn
      simp [decDigitsAux]
    | a + 1, 0 =>
      have hn : n = 0 := by omega
      subst hn
      simp [decDigitsAux]
    | a + 1, b + 1 =>
      rw [decDigitsAux, decDigitsAux]
      by_cases h : n < 10
      · rw [if_pos h, if_pos h]
      · rw [if_neg h, if_neg h]
        rw [ih (n / 10) (by omega) a b (by omega) (by omega)]

theorem decDigits_eq (n : Nat) :
    decDigits n = if n < 10 then [48 + n] else decDigits (n / 10) ++ [48 + n % 10] := by
  rw [decDigits, decDigits]
  match hn : n with
  | 0 => simp [decDigitsAux]
  | m + 1 =>
    rw [decDigitsAux]
    by_cases h : m + 1 < 10
    · rw [if_pos h, if_pos h]
    · rw [if_neg h, if_neg h]
      rw [decDigitsAux_irrel ((m + 1) / 10) m ((m + 1) / 10) (by omega) (by omega)]

theorem decDigits_zero : decDigits 0 = [48] := by decide

theorem decDigits_eq_digits : ∀ n : Nat, 0 < n →
    decDigits n = ((Nat.digits 10 n).reverse.map (fun d => 48 + d)) := by
  intro n
  induction n using Nat.strong_induction_on with
  | _ n ih =>
    intro hn
    rw [decDigits_eq]
    by_cases h : n < 10
    · rw [if_pos h]
      rw [Nat.digits_def' (by omega) hn]
      have h0 : n / 10 = 0 := by omega
      rw [h0]
      simp
      omega
    · rw [if_neg h]
      rw [Nat.digits_def' (by omega : (1 : Nat) < 10) hn]
      rw [ih (n / 10) (Nat.div_lt_self (by omega) (by omega)) (by omega)]
      simp

/-- C1 (amended): every encoded table entry has the form
`u8 keylen | key_bytes | value` where the stored length byte is the
actual key length (0-255; `_encode_table` asserts `len(k) < 256`), and
`_decode_table` inverts this, reading back a `keylen`-byte key. -/
theorem c1_table_entry_layout (k : List Nat) (v : PyVal)
    (rest : List (List Nat × PyVal)) (d : Bool) (ws : Option Bool)
    (hwf : wf_entries d ((k, v) :: rest) = true)
    (hws : (ws = some true) ↔ (d = true)) :
    encode_table ((k, v) :: rest)
        = k.length :: (k ++ encode_value v ++ encode_table rest) ∧
    decode_table (encode_table ((k, v) :: rest)) false ws = .ok ((k, v) :: rest) :=
  ⟨rfl, decode_encode_entries d ws _ hwf hws⟩

/-- Witness for `c1_table_entry_layout` at the entry `'ab' ↦ b'x'`. -/
theorem c1_table_entry_layout_witness :
    encode_table [([97, 98], PyVal.bytes [120])]
        = [97, 98].length :: ([97, 98] ++ encode_value (PyVal.bytes [120])
            ++ encode_table []) ∧
    decode_table (encode_table [([97, 98], PyVal.bytes [120])]) false none
        = .ok [([97, 98], PyVal.bytes [120])] :=
  c1_table_entry_layout [97, 98] (PyVal.bytes [120]) [] false none
    (by decide) (by simp)

/-- C1 as stated is false: the stored length byte of the key `'ab'` is
2, the actual key length, not `2 - 1`. -/
theorem c1_counterexample :
    (encode_table [([97, 98], PyVal.bytes [120])]).headD 0 = [97, 98].length ∧
    (encode_table [([97, 98], PyVal.bytes [120])]).headD 0 ≠ [97, 98].length - 1 := by
  decide

/-- C7 (amended): `_encode` accepts native ints and bools by coercing
through `str()`: an int encodes as the blob of its decimal string
(`decDigits` agrees with `Nat.digits`; e.g. `7` becomes the 1-byte blob
`'7'`), while a bool encodes as the blob `'True'`/`'False'`, not as a
decimal string. -/
theorem c7_native_scalars :
    (∀ i : Int, encode_value (.int i)
        = cc_vtype_binarydata :: u32be (intStr i).length ++ intStr i) ∧
    (∀ n : Nat, 0 < n →
        decDigits n = ((Nat.digits 10 n).reverse.map (fun d => 48 + d))) ∧
    decDigits 0 = [48] ∧
    encode_value (.int 7) = cc_vtype_binarydata :: u32be 1 ++ [55] ∧
    (∀ b : Bool, encode_value (.bool b)
        = cc_vtype_binarydata :: u32be (boolStr b).length ++ boolStr b) ∧
    boolStr true = [84, 114, 117, 101] ∧ boolStr false = [70, 97, 108, 115, 101] :=
  ⟨fun _ => rfl, decDigits_eq_digits, decDigits_zero,
   by decide, fun _ => rfl, rfl, rfl⟩

/-- Witness for `c7_native_scalars` at `i = -12` and `n = 12`. -/
theorem c7_native_scalars_witness :
    encode_value (.int (-12))
        = cc_vtype_binarydata :: u32be (intStr (-12)).length ++ intStr (-12) ∧
    decDigits 12 = ((Nat.digits 10 12).reverse.map (fun d => 48 + d)) :=
  ⟨c7_native_scalars.1 (-12), c7_native_scalars.2.1 12 (by decide)⟩

/-- C7 as stated is false for booleans: `True` encodes as the 4-byte
blob `'True'`, not as the decimal-string blob `'1'`. -/
theorem c7_counterexample :
    encode_value (PyVal.bool true)
        = cc_vtype_binarydata :: u32be 4 ++ [84, 114, 117, 101] ∧
    encode_value (PyVal.bool true) ≠ cc_vtype_binarydata :: u32be 1 ++ [49] := by
  decide

/-- C8 (amended): any inbound frame whose 4-byte length prefix claims
more than `MAX_WIRE_SIZE` is rejected with `MessageTooBig` before the
body is read (`Connection._read` fails whatever and however few bytes
follow the prefix), while `to_wire` performs no size check at all and
never raises `MessageTooBig`. -/
theorem c8_wire_size (C : Crypto) (secret : Option (List Nat)) :
    (∀ stream : List Nat, 4 ≤ stream.length →
      MAX_WIRE_SIZE < u32beVal (stream.take 4) →
      conn_read C stream secret = .error .messageTooBig) ∧
    (∀ m : Dict, to_wire C m secret ≠ .error .messageTooBig) := by
  constructor
  · intro stream hlen hbig
    rw [conn_read, read_all, if_neg (by omega)]
    simp only []
    rw [if_pos hbig]
  · intro m h
    rw [to_wire] at h
    repeat' split at h
    all_goals try simp_all
    all_goals rw [to_wire_encrypt] at *
    all_goals repeat' split at h
    all_goals simp_all [ite_eq_iff]

/-- Witness for `c8_wire_size`: a stream holding only the 4-byte prefix
`0x00400001` (4 MiB + 1) is rejected although no body follows, and
`to_wire` of a small message is not `MessageTooBig`. -/
theorem c8_wire_size_witness :
    conn_read trivCrypto [0, 64, 0, 1] none = .error .messageTooBig ∧
    to_wire trivCrypto compHintMsg none ≠ .error .messageTooBig :=
  ⟨(c8_wire_size trivCrypto none).1 [0, 64, 0, 1] (by decide) (by decide),
   (c8_wire_size trivCrypto none).2 compHintMsg⟩

/-- C8 as stated is false for the outgoing direction: `to_wire` happily
returns a frame of 5 MiB + 44 bytes (declared in its length prefix),
well above `MAX_WIRE_SIZE`, instead of raising `MessageTooBig`. -/
theorem to_wire_encrypt_plain (C : Crypto) (ctrl2 : Dict) (unsigned : List Nat)
    (wc : Option PyVal) (secret : Option (List Nat))
    (h : dictMem ctrl2 encKey = false) :
    to_wire_encrypt C ctrl2 unsigned wc secret = .ok unsigned := by
  simp [to_wire_encrypt, h]

theorem to_wire_blobMsg (n : Nat) (hn : n + 44 < 2 ^ 32) :
    to_wire trivCrypto (blobMsg n) none
        = .ok (u32be (n + 44) ++ (u32be cc_version ++ encode_table (blobMsg n))) ∧
    (encode_table (blobMsg n)).length = n + 40 := by
  have hlen : (encode_table (blobMsg n)).length = n + 40 := by
    simp [blobMsg, encode_table, encode_value, List.length_append,
      List.length_replicate, ctrlKey, dataKey, typeKey, u32be_length, u32be,
      cc_vtype_binarydata, cc_vtype_table]
  refine ⟨?_, hlen⟩
  rw [to_wire]
  rw [show dictGet (dictPop (blobMsg n) authKey) ctrlKey = some (.table []) by rfl]
  show (match to_wire_encrypt trivCrypto (dictPop [] compKey)
          (encode_table (dictSet (dictPop (blobMsg n) authKey) ctrlKey
            (PyVal.table (dictPop [] compKey))))
          (dictGet [] compKey) none with
        | Except.error e => Except.error e
        | Except.ok unsigned2 =>
          Except.ok (u32be (u32be cc_version ++ unsigned2).length
            ++ (u32be cc_version ++ unsigned2))) =
      Except.ok (u32be (n + 44) ++ (u32be cc_version ++ encode_table (blobMsg n)))
  rw [to_wire_encrypt_plain _ _ _ _ _ (by decide)]
  rw [show dictSet (dictPop (blobMsg n) authKey) ctrlKey
        (PyVal.table (dictPop [] compKey)) = blobMsg n by rfl]
  show Except.ok (u32be (u32be cc_version ++ encode_table (blobMsg n)).length
        ++ (u32be cc_version ++ encode_table (blobMsg n)))
      = Except.ok (u32be (n + 44) ++ (u32be cc_version ++ encode_table (blobMsg n)))
  rw [List.length_append, u32be_length, hlen]
  rw [show 4 + (n + 40) = n + 44 by omega]

/-- C8 as stated is false for the outgoing direction: `to_wire` happily
returns a frame of 5 MiB + 44 bytes (declared in its length prefix),
well above `MAX_WIRE_SIZE`, instead of raising `MessageTooBig`. -/
theorem c8_counterexample :
    (to_wire trivCrypto bigMsg none).map (fun w => u32beVal (w.take 4))
        = .ok (5 * 1024 * 1024 + 44) ∧
    MAX_WIRE_SIZE < 5 * 1024 * 1024 + 44 := by
  have h := to_wire_blobMsg (5 * 1024 * 1024) (by decide)
  refine ⟨?_, by decide⟩
  rw [show bigMsg = blobMsg (5 * 1024 * 1024) from rfl, h.1]
  rw [Except.map]
  rw [List.take_left' (u32be_length _)]
  rw [u32beVal_u32be _ (by decide)]

theorem dictGet_set_eq (d : Dict) (k : List Nat) (v : PyVal) :
    dictGet (dictSet d k v) k = some v := by
  induction d with
  | nil => simp [dictSet, dictGet]
  | cons hd rest ih =>
    obtain ⟨k0, v0⟩ := hd
    by_cases h : k0 = k
    · simp [dictSet, dictGet, h]
    · simp [dictSet, dictGet, h, ih]

theorem dictGet_set_ne (d : Dict) (k k2 : List Nat) (v : PyVal) (h : k ≠ k2) :
    dictGet (dictSet d k v) k2 = dictGet d k2 := by
  induction d with
  | nil => simp [dictSet, dictGet, h]
  | cons hd rest ih =>
    obtain ⟨k0, v0⟩ := hd
    rw [dictSet]
    by_cases h0 : k0 = k
    · rw [if_pos h0, dictGet, if_neg h, dictGet, if_neg (by rw [h0]; exact h)]
    · rw [if_neg h0, dictGet, dictGet]
      by_cases h2 : k0 = k2
      · rw [if_pos h2, if_pos h2]
      · rw [if_neg h2, if_neg h2, ih]

theorem dictGet_pop_ne (d : Dict) (k k2 : List Nat) (h : k ≠ k2) :
    dictGet (dictPop d k) k2 = dictGet d k2 := by
  induction d with
  | nil => rfl
  | cons hd rest ih =>
    obtain ⟨k0, v0⟩ := hd
    rw [dictPop]
    by_cases h0 : k0 = k
    · rw [if_pos h0, dictGet, if_neg (by rw [h0]; exact h)]
    · rw [if_neg h0, dictGet, dictGet]
      by_cases h2 : k0 = k2
      · rw [if_pos h2, if_pos h2]
      · rw [if_neg h2, if_neg h2, ih]

theorem dictMem_set_ne (d : Dict) (k k2 : List Nat) (v : PyVal) (h : k ≠ k2) :
    dictMem (dictSet d k v) k2 = dictMem d k2 := by
  induction d with
  | nil => simp [dictSet, dictMem, h]
  | cons hd rest ih =>
    obtain ⟨k0, v0⟩ := hd
    rw [dictSet]
    by_cases h0 : k0 = k
    · subst h0
      simp [dictMem, ih]
    · rw [if_neg h0]
      simp [dictMem, ih]

theorem dictMem_pop_ne (d : Dict) (k k2 : List Nat) (h : k ≠ k2) :
    dictMem (dictPop d k) k2 = dictMem d k2 := by
  induction d with
  | nil => rfl
  | cons hd rest ih =>
    obtain ⟨k0, v0⟩ := hd
    rw [dictPop]
    by_cases h0 : k0 = k
    · subst h0
      simp [dictMem, h]
    · rw [if_neg h0]
      simp [dictMem, ih]

theorem dictPop_not_mem (d : Dict) (k : List Nat) (h : dictMem d k = false) :
    dictPop d k = d := by
  induction d with
  | nil => rfl
  | cons hd rest ih =>
    obtain ⟨k0, v0⟩ := hd
    simp [dictMem] at h
    simp [dictPop, h.1, ih h.2]

theorem dictSet_self (d : Dict) (k : List Nat) (v : PyVal)
    (h : dictGet d k = some v) : dictSet d k v = d := by
  induction d with
  | nil => simp [dictGet] at h
  | cons hd rest ih =>
    obtain ⟨k0, v0⟩ := hd
    by_cases h0 : k0 = k
    · rw [dictGet, if_pos h0] at h
      rw [dictSet, if_pos h0]
      subst h0
      simp at h
      rw [h]
    · rw [dictGet, if_neg h0] at h
      rw [dictSet, if_neg h0, ih h]

/-- What `noncify_stamp` does to the connection state and the message:
`_snon`/`_sseq`/`_pnon` are stamped as decimal byte strings of
`self_nonce`/`self_next`/`peer_nonce`, `self_next` is bumped, requests
(no `_rpl`/`_evt` in `_ctrl`) are registered under `self_next`, and the
nonce fields of the connection are untouched. -/
theorem noncify_stamp_spec {σ : Type} (c : Conn σ) (m : Dict) (st : σ) (ctrl : Dict) :
    (noncify_stamp c m st ctrl).1.self_nonce = c.self_nonce ∧
    (noncify_stamp c m st ctrl).1.peer_nonce = c.peer_nonce ∧
    (noncify_stamp c m st ctrl).1.peer_next = c.peer_next ∧
    (noncify_stamp c m st ctrl).1.self_next = c.self_next + 1 ∧
    (noncify_stamp c m st ctrl).1.encrypted = c.encrypted ∧
    (noncify_stamp c m st ctrl).1.compressed = c.compressed ∧
    (noncify_stamp c m st ctrl).1.outstanding =
      (if !(dictMem ctrl rplKey || dictMem ctrl evtKey) then
        outSet c.outstanding (c.self_next : Int) st
      else c.outstanding) ∧
    (∃ ctrl5 : Dict,
      dictGet (noncify_stamp c m st ctrl).2 ctrlKey = some (.table ctrl5) ∧
      dictGet ctrl5 snonKey = some (.bytes (decDigits c.self_nonce)) ∧
      dictGet ctrl5 sseqKey = some (.bytes (decDigits c.self_next)) ∧
      dictGet ctrl5 pnonKey = some (.bytes (decDigits c.peer_nonce))) := by
  have hrpl : dictMem (dictSet (dictSet (dictSet ctrl snonKey
      (.bytes (decDigits c.self_nonce))) sseqKey (.bytes (decDigits c.self_next)))
      pnonKey (.bytes (decDigits c.peer_nonce))) rplKey = dictMem ctrl rplKey := by
    rw [dictMem_set_ne _ _ _ _ (by decide), dictMem_set_ne _ _ _ _ (by decide),
      dictMem_set_ne _ _ _ _ (by decide)]
  have hevt : dictMem (dictSet (dictSet (dictSet ctrl snonKey
      (.bytes (decDigits c.self_nonce))) sseqKey (.bytes (decDigits c.self_next)))
      pnonKey (.bytes (decDigits c.peer_nonce))) evtKey = dictMem ctrl evtKey := by
    rw [dictMem_set_ne _ _ _ _ (by decide), dictMem_set_ne _ _ _ _ (by decide),
      dictMem_set_ne _ _ _ _ (by decide)]
  refine ⟨rfl, rfl, rfl, rfl, rfl, rfl, ?_, ?_⟩
  · show (if !(dictMem (dictSet (dictSet (dictSet ctrl snonKey
        (.bytes (decDigits c.self_nonce))) sseqKey (.bytes (decDigits c.self_next)))
        pnonKey (.bytes (decDigits c.peer_nonce))) rplKey ||
        dictMem (dictSet (dictSet (dictSet ctrl snonKey
        (.bytes (decDigits c.self_nonce))) sseqKey (.bytes (decDigits c.self_next)))
        pnonKey (.bytes (decDigits c.peer_nonce))) evtKey) then
        outSet c.outstanding (c.self_next : Int) st
      else c.outstanding) = _
    rw [hrpl, hevt]
  · refine ⟨_, dictGet_set_eq _ _ _, ?_, ?_, ?_⟩
    all_goals cases hc : c.compressed <;> cases he : c.encrypted <;>
      simp only [noncify_stamp, hc, he, Bool.false_eq_true, if_true, if_false] <;>
      (try rw [dictGet_set_ne _ compKey snonKey _ (by decide)]) <;>
      (try rw [dictGet_pop_ne _ compKey snonKey (by decide)]) <;>
      (try rw [dictGet_set_ne _ encKey snonKey _ (by decide)]) <;>
      (try rw [dictGet_pop_ne _ encKey snonKey (by decide)]) <;>
      (try rw [dictGet_set_ne _ compKey sseqKey _ (by decide)]) <;>
      (try rw [dictGet_pop_ne _ compKey sseqKey (by decide)]) <;>
      (try rw [dictGet_set_ne _ encKey sseqKey _ (by decide)]) <;>
      (try rw [dictGet_pop_ne _ encKey sseqKey (by decide)]) <;>
      (try rw [dictGet_set_ne _ compKey pnonKey _ (by decide)]) <;>
      (try rw [dictGet_pop_ne _ compKey pnonKey (by decide)]) <;>
      (try rw [dictGet_set_ne _ encKey pnonKey _ (by decide)]) <;>
      (try rw [dictGet_pop_ne _ encKey pnonKey (by decide)]) <;>
      (try rw [dictGet_set_ne _ pnonKey snonKey _ (by decide),
        dictGet_set_ne _ sseqKey snonKey _ (by decide)]) <;>
      (try rw [dictGet_set_ne _ pnonKey sseqKey _ (by decide)]) <;>
      rw [dictGet_set_eq]

/-- `_noncify` succeeds iff `_ctrl` is a table or absent, and then acts
as `noncify_stamp` on the resolved (possibly empty) `_ctrl`. -/
theorem noncify_ok {σ : Type} (c : Conn σ) (m : Dict) (st : σ) (c2 : Conn σ) (m2 : Dict)
    (h : noncify c m st = .ok (c2, m2)) :
    ∃ ctrl0 : Dict, (c2, m2) = noncify_stamp c m st ctrl0 := by
  rw [noncify] at h
  rcases hg : dictGet m ctrlKey with _ | cv
  · rw [hg] at h
    simp only [Except.ok.injEq] at h
    exact ⟨[], h.symm⟩
  · cases cv with
    | table ctrl =>
      rw [hg] at h
      simp only [Except.ok.injEq] at h
      exact ⟨ctrl, h.symm⟩
    | bytes b => rw [hg] at h; simp at h
    | str s => rw [hg] at h; simp at h
    | list vs => rw [hg] at h; simp at h
    | int i => rw [hg] at h; simp at h
    | bool b => rw [hg] at h; simp at h

/-- C3: every message passed through `Connection.write` is stamped with
`_ctrl._snon = self_nonce`, `_ctrl._pnon` equal to the current
`peer_nonce` (zero before the peer is known) and `_ctrl._sseq` equal to
`self_next` at the time of the call, after which `self_next` is
incremented; `self_nonce`/`peer_nonce` are unchanged by writes, so over
a run of writes from the constructor state `self_next = 1` the stamped
`_sseq` values are exactly the decimal strings of `1, 2, 3, ...`
(the i-th sent message carries `self_next + i`). -/
theorem c3_write_noncing {σ : Type} (c : Conn σ) (ops : List (Dict × σ)) (cN : Conn σ)
    (sent : List Dict) (h : connWrites c ops = .ok (cN, sent)) :
    sent.length = ops.length ∧
    cN.self_next = c.self_next + ops.length ∧
    cN.self_nonce = c.self_nonce ∧ cN.peer_nonce = c.peer_nonce ∧
    ∀ i : Nat, ∀ hi : i < sent.length, ∃ ctrl : Dict,
      dictGet (sent.get ⟨i, hi⟩) ctrlKey = some (.table ctrl) ∧
      dictGet ctrl snonKey = some (.bytes (decDigits c.self_nonce)) ∧
      dictGet ctrl pnonKey = some (.bytes (decDigits c.peer_nonce)) ∧
      dictGet ctrl sseqKey = some (.bytes (decDigits (c.self_next + i))) := by
  induction ops generalizing c cN sent with
  | nil =>
    rw [connWrites] at h
    simp only [Except.ok.injEq, Prod.mk.injEq] at h
    obtain ⟨hc, hs⟩ := h
    subst hc
    subst hs
    refine ⟨rfl, by simp, rfl, rfl, ?_⟩
    intro i hi
    simp at hi
  | cons op rest ih =>
    obtain ⟨m, st⟩ := op
    rw [connWrites] at h
    rcases hn : noncify c m st with e | p2
    · rw [hn] at h; simp at h
    · obtain ⟨c2, m2⟩ := p2
      rw [hn] at h
      replace h : (match connWrites c2 rest with
          | Except.error e => Except.error e
          | Except.ok (c3, sent2) => Except.ok (c3, m2 :: sent2))
          = Except.ok (cN, sent) := h
      rcases hw : connWrites c2 rest with e | p3
      · rw [hw] at h; simp at h
      · obtain ⟨c3, sent2⟩ := p3
        rw [hw] at h
        simp only [Except.ok.injEq, Prod.mk.injEq] at h
        obtain ⟨hc, hs⟩ := h
        subst hc
        subst hs
        obtain ⟨ctrl0, hstamp⟩ := noncify_ok c m st c2 m2 hn
        have hspec := noncify_stamp_spec c m st ctrl0
        have hc2 : c2 = (noncify_stamp c m st ctrl0).1 := by rw [← hstamp]
        have hm2 : m2 = (noncify_stamp c m st ctrl0).2 := by rw [← hstamp]
        obtain ⟨hlen, hnext, hnon, hpeer, hget⟩ := ih c2 c3 sent2 hw
        refine ⟨by simp [hlen], ?_, ?_, ?_, ?_⟩
        · rw [hnext, hc2, hspec.2.2.2.1]
          simp
          omega
        · rw [hnon, hc2, hspec.1]
        · rw [hpeer, hc2, hspec.2.1]
        · intro i hi
          match i with
          | 0 =>
            obtain ⟨ctrl5, hg1, hg2, hg3, hg4⟩ := hspec.2.2.2.2.2.2.2
            refine ⟨ctrl5, ?_, hg2, hg4, ?_⟩
            · rw [show (m2 :: sent2).get ⟨0, hi⟩ = m2 from rfl, hm2]
              exact hg1
            · rw [Nat.add_zero]
              exact hg3
          | i + 1 =>
            have hi2 : i < sent2.length := by simp at hi; omega
            obtain ⟨ctrl5, hg1, hg2, hg3, hg4⟩ := hget i hi2
            refine ⟨ctrl5, ?_, ?_, ?_, ?_⟩
            · rw [show (m2 :: sent2).get ⟨i + 1, hi⟩ = sent2.get ⟨i, hi2⟩ from rfl]
              exact hg1
            · rw [hg2, hc2, hspec.1]
            · rw [hg3, hc2, hspec.2.1]
            · rw [hg4, hc2, hspec.2.2.2.1]
              rw [show c.self_next + 1 + i = c.self_next + (i + 1) by omega]

/-- Witness for `c3_write_noncing`: two writes on a fresh connection
stamp `_sseq` `'1'` then `'2'`, `_snon` `'5'`, `_pnon` `'0'`. -/
theorem c3_write_noncing_witness :
    connWrites connW0 writeOps = Except.ok (cNW, sentW) ∧
    (∃ ctrl : Dict,
      dictGet (sentW.get ⟨1, by decide⟩) ctrlKey = some (.table ctrl) ∧
      dictGet ctrl snonKey = some (.bytes (decDigits 5)) ∧
      dictGet ctrl pnonKey = some (.bytes (decDigits 0)) ∧
      dictGet ctrl sseqKey = some (.bytes (decDigits (1 + 1)))) := by
  have h := c3_write_noncing connW0 writeOps cNW sentW (by decide)
  exact ⟨by decide, h.2.2.2.2 1 (by decide)⟩

theorem if_nonce_err (a b : Nat) (e : Err)
    (h : ((if a = 0 then Except.ok b
        else if b ≠ a then Except.error Err.badNoncing
        else Except.ok a : Except Err Nat)) = .error e) : e = .badNoncing := by
  repeat' split at h
  all_goals simp_all

theorem get_nonce_field_err (ctrl : Dict) (field : List Nat) (zk : Bool) (e : Err)
    (h : get_nonce_field ctrl field zk = .error e) : e = .badNoncing := by
  rw [get_nonce_field] at h
  repeat' split at h
  all_goals simp_all

/-- Forward characterization of `check_nonces`: success implies `_pnon`
parsed to `self_nonce`, `_snon` matched or was learned, `_sseq` matched
or was learned. -/
theorem check_nonces_ok {σ : Type} (c : Conn σ) (ctrl : Dict) (pn2 px2 : Nat)
    (h : check_nonces c ctrl = .ok (pn2, px2)) :
    ∃ snon sseq : Nat,
      get_nonce_field ctrl pnonKey false = .ok c.self_nonce ∧
      get_nonce_field ctrl snonKey false = .ok snon ∧
      get_nonce_field ctrl sseqKey false = .ok sseq ∧
      (if c.peer_nonce = 0 then pn2 = snon
       else snon = c.peer_nonce ∧ pn2 = c.peer_nonce) ∧
      (if c.peer_next = 0 then px2 = sseq
       else sseq = c.peer_next ∧ px2 = c.peer_next) := by
  rw [check_nonces] at h
  rcases hp : get_nonce_field ctrl pnonKey false with e | pnon
  · rw [hp] at h
    simp at h
  rw [hp] at h
  simp only [] at h
  by_cases hpn : pnon ≠ c.self_nonce
  · rw [if_pos hpn] at h
    simp at h
  rw [if_neg hpn] at h
  push_neg at hpn
  subst hpn
  rcases hs : get_nonce_field ctrl snonKey false with e | snon
  · rw [hs] at h
    simp at h
  rw [hs] at h
  simp only [] at h
  rcases hs2 : ((if c.peer_nonce = 0 then Except.ok snon
      else if snon ≠ c.peer_nonce then Except.error Err.badNoncing
      else Except.ok c.peer_nonce : Except Err Nat)) with e | pn2x
  · rw [hs2] at h
    simp at h
  rw [hs2] at h
  simp only [] at h
  rcases hq : get_nonce_field ctrl sseqKey false with e | sseq
  · rw [hq] at h
    simp at h
  rw [hq] at h
  simp only [] at h
  rcases hq2 : ((if c.peer_next = 0 then Except.ok sseq
      else if sseq ≠ c.peer_next then Except.error Err.badNoncing
      else Except.ok c.peer_next : Except Err Nat)) with e | px2x
  · rw [hq2] at h
    simp at h
  rw [hq2] at h
  simp only [Except.ok.injEq, Prod.mk.injEq] at h
  obtain ⟨h1, h2⟩ := h
  subst h1
  subst h2
  refine ⟨snon, sseq, rfl, rfl, rfl, ?_, ?_⟩
  · by_cases hz : c.peer_nonce = 0
    · rw [if_pos hz]
      rw [if_pos hz] at hs2
      simp at hs2
      omega
    · rw [if_neg hz]
      rw [if_neg hz] at hs2
      by_cases hm : snon ≠ c.peer_nonce
      · rw [if_pos hm] at hs2
        simp at hs2
      · rw [if_neg hm] at hs2
        simp at hs2
        push_neg at hm
        exact ⟨hm, hs2.symm⟩
  · by_cases hz : c.peer_next = 0
    · rw [if_pos hz]
      rw [if_pos hz] at hq2
      simp at hq2
      omega
    · rw [if_neg hz]
      rw [if_neg hz] at hq2
      by_cases hm : sseq ≠ c.peer_next
      · rw [if_pos hm] at hq2
        simp at hq2
      · rw [if_neg hm] at hq2
        simp at hq2
        push_neg at hm
        exact ⟨hm, hq2.symm⟩

/-- `check_nonces` turns every violation into `BadNoncing`: any failure
of `check_nonces` is the `BadNoncing` error, and mismatched `_pnon`,
`_snon` or `_sseq` are failures. -/
theorem check_nonces_err {σ : Type} (c : Conn σ) (ctrl : Dict) :
    (∀ e, check_nonces c ctrl = .error e → e = .badNoncing) ∧
    (∀ pnon, get_nonce_field ctrl pnonKey false = .ok pnon → pnon ≠ c.self_nonce →
      check_nonces c ctrl = .error .badNoncing) ∧
    (∀ snon, get_nonce_field ctrl pnonKey false = .ok c.self_nonce →
      get_nonce_field ctrl snonKey false = .ok snon →
      c.peer_nonce ≠ 0 → snon ≠ c.peer_nonce →
      check_nonces c ctrl = .error .badNoncing) ∧
    (∀ snon sseq, get_nonce_field ctrl pnonKey false = .ok c.self_nonce →
      get_nonce_field ctrl snonKey false = .ok snon →
      (c.peer_nonce = 0 ∨ snon = c.peer_nonce) →
      get_nonce_field ctrl sseqKey false = .ok sseq →
      c.peer_next ≠ 0 → sseq ≠ c.peer_next →
      check_nonces c ctrl = .error .badNoncing) := by
  refine ⟨?_, ?_, ?_, ?_⟩
  · intro e h
    rw [check_nonces] at h
    rcases hp : get_nonce_field ctrl pnonKey false with e1 | pnon
    · rw [hp] at h
      simp only [Except.error.injEq] at h
      subst h
      exact get_nonce_field_err _ _ _ _ hp
    rw [hp] at h
    simp only [] at h
    by_cases hpn : pnon ≠ c.self_nonce
    · rw [if_pos hpn] at h
      simp only [Except.error.injEq] at h
      exact h.symm
    rw [if_neg hpn] at h
    rcases hs : get_nonce_field ctrl snonKey false with e1 | snon
    · rw [hs] at h
      simp only [Except.error.injEq] at h
      subst h
      exact get_nonce_field_err _ _ _ _ hs
    rw [hs] at h
    simp only [] at h
    rcases hs2 : ((if c.peer_nonce = 0 then Except.ok snon
        else if snon ≠ c.peer_nonce then Except.error Err.badNoncing
        else Except.ok c.peer_nonce : Except Err Nat)) with e1 | pn2
    · rw [hs2] at h
      simp only [Except.error.injEq] at h
      subst h
      exact if_nonce_err _ _ _ hs2
    rw [hs2] at h
    simp only [] at h
    rcases hq : get_nonce_field ctrl sseqKey false with e1 | sseq
    · rw [hq] at h
      simp only [Except.error.injEq] at h
      subst h
      exact get_nonce_field_err _ _ _ _ hq
    rw [hq] at h
    simp only [] at h
    rcases hq2 : ((if c.peer_next = 0 then Except.ok sseq
        else if sseq ≠ c.peer_next then Except.error Err.badNoncing
        else Except.ok c.peer_next : Except Err Nat)) with e1 | px2
    · rw [hq2] at h
      simp only [Except.error.injEq] at h
      subst h
      exact if_nonce_err _ _ _ hq2
    rw [hq2] at h
    simp at h
  · intro pnon hp hne
    rw [check_nonces, hp]
    simp only []
    rw [if_pos hne]
  · intro snon hp hs hz hne
    rw [check_nonces, hp]
    simp only []
    rw [if_neg (by simp), hs]
    simp only []
    rw [if_neg hz, if_pos hne]
  · intro snon sseq hp hs hsok hq hz hne
    rw [check_nonces, hp]
    simp only []
    rw [if_neg (by simp), hs]
    simp only []
    have hstep : ((if c.peer_nonce = 0 then Except.ok snon
        else if snon ≠ c.peer_nonce then Except.error Err.badNoncing
        else Except.ok c.peer_nonce : Except Err Nat))
        = .ok (if c.peer_nonce = 0 then snon else c.peer_nonce) := by
      rcases hsok with hz0 | heq
      · rw [if_pos hz0, if_pos hz0]
      · by_cases hz0 : c.peer_nonce = 0
        · rw [if_pos hz0, if_pos hz0]
        · rw [if_neg hz0, if_neg hz0, if_neg (by simp [heq])]
    rw [hstep]
    simp only []
    rw [hq]
    simp only []
    rw [if_neg hz, if_pos hne]

theorem check_rseq_peer {σ : Type} (c2 : Conn σ) (ctrl : Dict) (c3 : Conn σ)
    (st : Option σ) (h : check_rseq c2 ctrl = .ok (c3, st)) :
    c3.peer_nonce = c2.peer_nonce ∧ c3.peer_next = c2.peer_next := by
  rw [check_rseq] at h
  repeat' split at h
  all_goals simp_all
  obtain ⟨h1, h2⟩ := h
  subst h1
  exact ⟨rfl, rfl⟩

/-- C4: `Connection._check` accepts an incoming message only if
`_ctrl._pnon` equals `self_nonce`, `_ctrl._snon` equals `peer_nonce`
(learned from `_snon` when `peer_nonce` is still zero) and `_ctrl._sseq`
equals `peer_next` (learned from `_sseq` when `peer_next` is still
zero), after which `peer_next` is set to one past the matched value;
a mismatched `_pnon`, `_snon` or `_sseq` makes `_check` raise
`BadNoncing`. -/
theorem c4_check_noncing {σ : Type} (c : Conn σ) (message : Dict) (ctrl : Dict)
    (hctrl : dictGet message ctrlKey = some (.table ctrl)) :
    (∀ c2 st, check c message = .ok (c2, st) →
      ∃ snon sseq : Nat,
        get_nonce_field ctrl pnonKey false = .ok c.self_nonce ∧
        get_nonce_field ctrl snonKey false = .ok snon ∧
        get_nonce_field ctrl sseqKey false = .ok sseq ∧
        (if c.peer_nonce = 0 then c2.peer_nonce = snon
         else snon = c.peer_nonce ∧ c2.peer_nonce = c.peer_nonce) ∧
        (if c.peer_next = 0 then c2.peer_next = sseq + 1
         else sseq = c.peer_next ∧ c2.peer_next = c.peer_next + 1)) ∧
    (∀ pnon, get_nonce_field ctrl pnonKey false = .ok pnon →
      pnon ≠ c.self_nonce → check c message = .error .badNoncing) ∧
    (∀ snon, get_nonce_field ctrl pnonKey false = .ok c.self_nonce →
      get_nonce_field ctrl snonKey false = .ok snon →
      c.peer_nonce ≠ 0 → snon ≠ c.peer_nonce →
      check c message = .error .badNoncing) ∧
    (∀ snon sseq, get_nonce_field ctrl pnonKey false = .ok c.self_nonce →
      get_nonce_field ctrl snonKey false = .ok snon →
      (c.peer_nonce = 0 ∨ snon = c.peer_nonce) →
      get_nonce_field ctrl sseqKey false = .ok sseq →
      c.peer_next ≠ 0 → sseq ≠ c.peer_next →
      check c message = .error .badNoncing) := by
  refine ⟨?_, ?_, ?_, ?_⟩
  · intro c2 st h
    rw [check, hctrl] at h
    simp only [] at h
    by_cases hg : c.encrypted ∧ ¬dictMem ctrl encKey
    · rw [if_pos hg] at h
      simp at h
    rw [if_neg hg] at h
    rcases hcn : check_nonces c ctrl with e | p
    · rw [hcn] at h
      simp at h
    obtain ⟨pn2, px2⟩ := p
    rw [hcn] at h
    replace h : (if dictMem ctrl rplKey then
        check_rseq { c with peer_nonce := pn2, peer_next := px2 + 1 } ctrl
        else .ok ({ c with peer_nonce := pn2, peer_next := px2 + 1 }, none))
        = .ok (c2, st) := h
    obtain ⟨snon, sseq, h1, h2, h3, h4, h5⟩ := check_nonces_ok c ctrl pn2 px2 hcn
    have hc2 : c2.peer_nonce = pn2 ∧ c2.peer_next = px2 + 1 := by
      by_cases hr : dictMem ctrl rplKey
      · rw [if_pos hr] at h
        have hpres := check_rseq_peer _ _ _ _ h
        simpa using hpres
      · rw [if_neg hr] at h
        simp only [Except.ok.injEq, Prod.mk.injEq] at h
        obtain ⟨h6, h7⟩ := h
        subst h6
        exact ⟨rfl, rfl⟩
    refine ⟨snon, sseq, h1, h2, h3, ?_, ?_⟩
    · by_cases hz : c.peer_nonce = 0
      · rw [if_pos hz]
        rw [if_pos hz] at h4
        rw [hc2.1, h4]
      · rw [if_neg hz]
        rw [if_neg hz] at h4
        exact ⟨h4.1, by rw [hc2.1, h4.2]⟩
    · by_cases hz : c.peer_next = 0
      · rw [if_pos hz]
        rw [if_pos hz] at h5
        rw [hc2.2, h5]
      · rw [if_neg hz]
        rw [if_neg hz] at h5
        exact ⟨h5.1, by rw [hc2.2, h5.2]⟩
  · intro pnon hp hne
    rw [check, hctrl]
    simp only []
    by_cases hg : c.encrypted ∧ ¬dictMem ctrl encKey
    · rw [if_pos hg]
    · rw [if_neg hg, (check_nonces_err c ctrl).2.1 pnon hp hne]
  · intro snon hp hs hz hne
    rw [check, hctrl]
    simp only []
    by_cases hg : c.encrypted ∧ ¬dictMem ctrl encKey
    · rw [if_pos hg]
    · rw [if_neg hg, (check_nonces_err c ctrl).2.2.1 snon hp hs hz hne]
  · intro snon sseq hp hs hsok hq hz hne
    rw [check, hctrl]
    simp only []
    by_cases hg : c.encrypted ∧ ¬dictMem ctrl encKey
    · rw [if_pos hg]
    · rw [if_neg hg, (check_nonces_err c ctrl).2.2.2 snon sseq hp hs hsok hq hz hne]

theorem c4_check_noncing_witness :
    dictGet c4msg ctrlKey = some (.table c4ctrl) ∧
    (∀ c2 st, check connW0 c4msg = .ok (c2, st) →
      ∃ snon sseq : Nat,
        get_nonce_field c4ctrl pnonKey false = .ok connW0.self_nonce ∧
        get_nonce_field c4ctrl snonKey false = .ok snon ∧
        get_nonce_field c4ctrl sseqKey false = .ok sseq ∧
        (if connW0.peer_nonce = 0 then c2.peer_nonce = snon
         else snon = connW0.peer_nonce ∧ c2.peer_nonce = connW0.peer_nonce) ∧
        (if connW0.peer_next = 0 then c2.peer_next = sseq + 1
         else sseq = connW0.peer_next ∧ c2.peer_next = connW0.peer_next + 1)) ∧
    check connW0 c4msg =
      .ok ({ connW0 with peer_nonce := 9, peer_next := 2 }, none) :=
  ⟨by decide, (c4_check_noncing connW0 c4msg c4ctrl (by decide)).1, by decide⟩

theorem outGet_outDel_self {σ : Type} (d : List (Int × σ)) (k : Int)
    (hd : outKeysDistinct d = true) : outGet (outDel d k) k = none := by
  induction d with
  | nil => rfl
  | cons p rest ih =>
    obtain ⟨k0, v0⟩ := p
    simp only [outKeysDistinct, Bool.and_eq_true] at hd
    simp only [outDel]
    by_cases hk : k0 = k
    · rw [if_pos hk]
      subst hk
      exact Option.isNone_iff_eq_none.mp hd.1
    · rw [if_neg hk]
      simp only [outGet, if_neg hk]
      exact ih hd.2

theorem check_rseq_ok_inv {σ : Type} (c2 : Conn σ) (ctrl : Dict) (c3 : Conn σ)
    (st : Option σ) (h : check_rseq c2 ctrl = .ok (c3, st)) :
    ∃ rv rseq st0, dictGet ctrl rseqKey = some rv ∧ pyIntOf rv = some rseq ∧
      outGet c2.outstanding rseq = some st0 ∧
      c3 = { c2 with outstanding := outDel c2.outstanding rseq } ∧
      st = some st0 := by
  rw [check_rseq] at h
  repeat' split at h
  all_goals simp_all
  obtain ⟨h1, h2⟩ := h
  exact ⟨_, h2.symm⟩

/-- C5: `Connection._noncify` (called by `write`) registers
`self_next ↦ state` in `outstanding` exactly when the message is a
request (neither `_rpl` nor `_evt` in `_ctrl`), and bumps `self_next`;
the response tail of `Connection._check` pops the outstanding entry
matching `int(_ctrl['_rseq'])` and returns its state, raises
`BadNoncing` when no entry matches, and — since the pop removes the
entry — a second response with the same `_rseq` on a
duplicate-free table also raises `BadNoncing`, so a state is delivered
at most once. -/
theorem c5_outstanding {σ : Type} :
    (∀ (c : Conn σ) m st c2 m2, noncify c m st = .ok (c2, m2) →
      ∃ ctrl0 : Dict,
        (dictGet m ctrlKey = some (.table ctrl0) ∨
         (dictGet m ctrlKey = none ∧ ctrl0 = [])) ∧
        c2.self_next = c.self_next + 1 ∧
        c2.outstanding =
          (if !(dictMem ctrl0 rplKey || dictMem ctrl0 evtKey) then
            outSet c.outstanding (c.self_next : Int) st
          else c.outstanding)) ∧
    (∀ (c2 : Conn σ) ctrl rv rseq,
      dictGet ctrl rseqKey = some rv → pyIntOf rv = some rseq →
      (∀ st, outGet c2.outstanding rseq = some st →
        check_rseq c2 ctrl =
          .ok ({ c2 with outstanding := outDel c2.outstanding rseq }, some st)) ∧
      (outGet c2.outstanding rseq = none →
        check_rseq c2 ctrl = .error .badNoncing)) ∧
    (∀ (c2 : Conn σ) ctrl c3 st, outKeysDistinct c2.outstanding = true →
      check_rseq c2 ctrl = .ok (c3, st) →
      check_rseq c3 ctrl = .error .badNoncing) := by
  refine ⟨?_, ?_, ?_⟩
  · intro c m st c2 m2 h
    rw [noncify] at h
    rcases hg : dictGet m ctrlKey with _ | cv
    · rw [hg] at h
      simp only [Except.ok.injEq] at h
      have hc2 : c2 = (noncify_stamp c m st []).1 := by rw [h]
      refine ⟨[], Or.inr ⟨rfl, rfl⟩, ?_, ?_⟩
      · rw [hc2]
        exact (noncify_stamp_spec c m st []).2.2.2.1
      · rw [hc2]
        exact (noncify_stamp_spec c m st []).2.2.2.2.2.2.1
    · cases cv with
      | table ctrl =>
        rw [hg] at h
        simp only [Except.ok.injEq] at h
        have hc2 : c2 = (noncify_stamp c m st ctrl).1 := by rw [h]
        refine ⟨ctrl, Or.inl rfl, ?_, ?_⟩
        · rw [hc2]
          exact (noncify_stamp_spec c m st ctrl).2.2.2.1
        · rw [hc2]
          exact (noncify_stamp_spec c m st ctrl).2.2.2.2.2.2.1
      | bytes b => rw [hg] at h; simp at h
      | str s => rw [hg] at h; simp at h
      | list vs => rw [hg] at h; simp at h
      | int i => rw [hg] at h; simp at h
      | bool b => rw [hg] at h; simp at h
  · intro c2 ctrl rv rseq hrv hpi
    constructor
    · intro st hget
      rw [check_rseq, hrv]
      simp only []
      rw [hpi]
      simp only []
      rw [hget]
    · intro hget
      rw [check_rseq, hrv]
      simp only []
      rw [hpi]
      simp only []
      rw [hget]
  · intro c2 ctrl c3 st hdist h
    obtain ⟨rv, rseq, st0, hrv, hpi, hget, hc3, hst⟩ := check_rseq_ok_inv c2 ctrl c3 st h
    rw [check_rseq, hrv]
    simp only []
    rw [hpi]
    simp only []
    have hnone : outGet c3.outstanding rseq = none := by
      rw [hc3]
      exact outGet_outDel_self c2.outstanding rseq hdist
    rw [hnone]

theorem c5_outstanding_witness :
    outKeysDistinct c5conn.outstanding = true ∧
    check_rseq c5conn c5ctrl = .ok (c5conn2, some ()) ∧
    check_rseq c5conn2 c5ctrl = .error .badNoncing :=
  ⟨by decide, by decide,
   (@c5_outstanding Unit).2.2 c5conn c5ctrl c5conn2 (some ())
     (by decide) (by decide)⟩

theorem dictMem_of_get {d : Dict} {k : List Nat} {v : PyVal}
    (h : dictGet d k = some v) : dictMem d k = true := by
  induction d with
  | nil => simp [dictGet] at h
  | cons p rest ih =>
    obtain ⟨k0, v0⟩ := p
    rw [dictGet] at h
    rw [dictMem]
    by_cases hk : k0 = k
    · simp [hk]
    · rw [if_neg hk] at h
      simp [hk, ih h]

theorem readerFinish_stop_iff (r : RState) (d : PyVal) :
    (readerFinish r d).1 = .stop ↔ (r.done = true ∧ pyLen d = some 1) := by
  simp only [readerFinish]
  repeat' split
  all_goals simp_all

/-- C9: one-step stopping behaviour of `Reader.__next__`.  With queued
items the reader yields; with `done` set it stops; on a fresh response
the reader stops exactly when `_more` is absent and the effective
`_data` (the response `_data`, or the head of a batched `list`) has
exactly one key — the suppression rule — except that a batched `list`
that is empty stops the iterator even when `_more` is present. -/
theorem c9_reader_stop (tell : Dict → Dict) (r : RState) :
    (∀ d rest, r.datas = d :: rest →
      readerNext tell r = (.yields d, { r with datas := rest })) ∧
    (r.datas = [] → r.done = true → readerNext tell r = (.stop, r)) ∧
    (∀ ctrl d, r.datas = [] → r.done = false → r.first = true →
      dictGet (tell r.request) ctrlKey = some (.table ctrl) →
      dictGet (tell r.request) dataKey = some d →
      ((readerNext tell r).1 = .stop ↔
        (dictMem ctrl moreKey = false ∧ pyLen d = some 1))) ∧
    (∀ ctrl d, r.datas = [] → r.done = false → r.first = false →
      r.batch = false →
      dictGet (tell (readerNextRequest r)) ctrlKey = some (.table ctrl) →
      dictGet (tell (readerNextRequest r)) dataKey = some d →
      ((readerNext tell r).1 = .stop ↔
        (dictMem ctrl moreKey = false ∧ pyLen d = some 1))) ∧
    (∀ ctrl data l, r.datas = [] → r.done = false → r.first = false →
      r.batch = true →
      dictGet (tell (readerNextRequest r)) ctrlKey = some (.table ctrl) →
      dictGet (tell (readerNextRequest r)) dataKey = some (.table data) →
      dictGet data listKey = some (.list l) →
      ((readerNext tell r).1 = .stop ↔
        (l = [] ∨ (dictMem ctrl moreKey = false ∧
          ∃ d0 rest, l = d0 :: rest ∧ pyLen d0 = some 1)))) := by
  refine ⟨?_, ?_, ?_, ?_, ?_⟩
  · intro d rest hd
    rw [readerNext, hd]
  · intro hd hdone
    rw [readerNext, hd, hdone]
    rfl
  · intro ctrl d hd hdone hfirst hc hdata
    simp only [readerNext, hd, hdone, hfirst, hc, hdata, Bool.false_eq_true,
      if_false, if_true]
    by_cases hm : dictMem ctrl moreKey = true
    · simp only [hm, if_true]
      rcases hsq : dictGet ctrl seqKey with _ | s
      · simp [hsq]
      · simp only [hsq]
        rw [readerFinish_stop_iff]
        by_cases hb : (dictMem ctrl batchKey && decide (r.num > 0)) = true
        · simp [hb, hdone, hm]
        · simp only [Bool.not_eq_true] at hb
          simp [hb, hdone, hm]
    · simp only [Bool.not_eq_true] at hm
      simp only [hm, Bool.false_eq_true, if_false]
      rw [readerFinish_stop_iff]
      simp
  · intro ctrl d hd hdone hfirst hbatch hc hdata
    simp only [readerNext, hd, hdone, hfirst, hc, hdata, Bool.false_eq_true,
      if_false, if_true]
    by_cases hm : dictMem ctrl moreKey = true
    · simp only [hm, Bool.not_true, Bool.false_eq_true, if_false]
      simp only [hbatch, Bool.false_eq_true, if_false]
      rw [readerFinish_stop_iff]
      simp [hdone, hm]
    · simp only [Bool.not_eq_true] at hm
      simp only [hm, Bool.not_false, if_true]
      simp only [hbatch, Bool.false_eq_true, if_false]
      rw [readerFinish_stop_iff]
      simp [hm]
  · intro ctrl data l hd hdone hfirst hbatch hc hdata hl
    have hmem : dictMem data listKey = true := dictMem_of_get hl
    simp only [readerNext, hd, hdone, hfirst, hc, hdata, Bool.false_eq_true,
      if_false, if_true]
    by_cases hm : dictMem ctrl moreKey = true
    · simp only [hm, Bool.not_true, Bool.false_eq_true, if_false]
      simp only [hbatch, if_true, pyContains, hmem]
      simp only [hl]
      rcases l with _ | ⟨d0, rest⟩
      · simp
      · rw [readerFinish_stop_iff]
        simp [hdone, hm]
    · simp only [Bool.not_eq_true] at hm
      simp only [hm, Bool.not_false, if_true]
      simp only [hbatch, if_true, pyContains, hmem]
      simp only [hl]
      rcases l with _ | ⟨d0, rest⟩
      · simp
      · rw [readerFinish_stop_iff]
        simp [hm]

theorem c9_reader_stop_witness :
    (readerNext c9tell c9reader).1 = .stop :=
  ((c9_reader_stop c9tell c9reader).2.2.2.1 [] (.table [(typeKey, .str [110])])
    (by decide) (by decide) (by decide) (by decide) (by decide) (by decide)).mpr
    ⟨by decide, by decide⟩

/-- C9 counterexample: driven by `seqTellEmptyBatch`, the reader's
second response carries `_more` in `_ctrl`, yet `__next__` raises
`StopIteration` because the batched `list` payload is empty — so
iteration does not end exactly on the missing-`_more` responses. -/
theorem c9_counterexample :
    dictGet (seqTellEmptyBatch
        (readerNextRequest (readerNext seqTellEmptyBatch seqReader0).2)) ctrlKey =
      some (.table [(moreKey, PyVal.bytes [49])]) ∧
    dictMem [(moreKey, PyVal.bytes [49])] moreKey = true ∧
    (readerNext seqTellEmptyBatch
        (readerNext seqTellEmptyBatch seqReader0).2).1 = .stop := by decide

theorem dictMem_pop_self (d : Dict) (k : List Nat)
    (h : dictKeysDistinct d = true) : dictMem (dictPop d k) k = false := by
  induction d with
  | nil => rfl
  | cons p rest ih =>
    obtain ⟨k0, v0⟩ := p
    simp only [dictKeysDistinct, Bool.and_eq_true, Bool.not_eq_true'] at h
    simp only [dictPop]
    by_cases hk : k0 = k
    · rw [if_pos hk]
      rw [← hk]
      exact h.1
    · rw [if_neg hk]
      simp only [dictMem, ih h.2, decide_eq_true_eq]
      simp [hk]

/-- C10: `to_wire` first pops any `_auth` entry from the message and
any `_comp` entry from its `_ctrl` (in the source this mutates the
caller's dict; `prep_message` is that normalization), so on the
unencrypted path the encoded body is exactly `_encode_table` of the
normalized message — it contains no `_comp` key and no stale `_auth`
entry — and when a secret is given the only `_auth` block on the wire
is the freshly signed one prepended before the body. -/
theorem c10_to_wire_prep (C : Crypto) (message : Dict) (ctrl : Dict)
    (secret : Option (List Nat))
    (hctrl : dictGet (dictPop message authKey) ctrlKey = some (.table ctrl))
    (hpe : dictMem (dictPop ctrl compKey) encKey = false)
    (hndm : dictKeysDistinct message = true)
    (hndc : dictKeysDistinct ctrl = true) :
    dictMem (dictPop message authKey) authKey = false ∧
    dictMem (dictPop ctrl compKey) compKey = false ∧
    prep_message message =
      dictSet (dictPop message authKey) ctrlKey (.table (dictPop ctrl compKey)) ∧
    to_wire C message secret =
      (let body := encode_table (prep_message message)
       let res :=
         match secret with
         | some s =>
           u32be cc_version ++
             encode_table [(authKey,
               PyVal.table [(hmd5Key, PyVal.bytes (hmd5_sig C s body))])] ++ body
         | none => u32be cc_version ++ body
       .ok (u32be res.length ++ res)) := by
  have hprep : prep_message message =
      dictSet (dictPop message authKey) ctrlKey (.table (dictPop ctrl compKey)) := by
    simp only [prep_message, hctrl]
  refine ⟨dictMem_pop_self message authKey hndm,
          dictMem_pop_self ctrl compKey hndc, hprep, ?_⟩
  simp only [to_wire, hctrl]
  rw [to_wire_encrypt_plain C _ _ _ _ hpe]
  simp only [hprep]

theorem c10_to_wire_prep_witness :
    dictMem (dictPop c10msg authKey) authKey = false ∧
    dictMem (dictPop c10ctrl compKey) compKey = false ∧
    (let body := encode_table (prep_message c10msg)
     let res :=
       u32be cc_version ++
         encode_table [(authKey,
           PyVal.table [(hmd5Key, PyVal.bytes (hmd5_sig trivCrypto [107] body))])] ++ body
     to_wire trivCrypto c10msg (some [107]) = .ok (u32be res.length ++ res)) :=
  have h := c10_to_wire_prep trivCrypto c10msg c10ctrl (some [107])
    (by decide) (by decide) (by decide) (by decide)
  ⟨h.1, h.2.1, h.2.2.2⟩

theorem hmd5_sig_length (C : Crypto) (s p : List Nat)
    (h : (C.hmacMd5 s p).length = 16) : (hmd5_sig C s p).length = 22 := by
  simp [hmd5_sig, List.length_dropLast, b64encode_length, h]

theorem auth_block_eq (sig : List Nat) (h : sig.length = 22) :
    encode_table [(authKey, .table [(hmd5Key, .bytes sig)])] =
      cc_auth_fixed ++ sig := by
  simp [encode_table, encode_value, authKey, hmd5Key, cc_auth_fixed, u32be, h,
    cc_vtype_table, cc_vtype_binarydata]

/-- C6: every signed frame is `u32 length | u32 version | cc_auth_fixed
(21 bytes) | 22-byte signature | payload`, where the signature is
base64 of HMAC-MD5(secret, payload) with the trailing `==` stripped;
`from_wire` recomputes the signature over the bytes from offset 43
after the version word and raises `BadAuth` when the auth block is
missing (or a secret is missing for an authenticated frame), when the
21-byte prefix differs from `cc_auth_fixed`, and when the signature
mismatches. -/
theorem c6_auth_layout (C : Crypto) (s : List Nat)
    (hmac16 : ∀ p, (C.hmacMd5 s p).length = 16) :
    (∀ message w, to_wire C message (some s) = .ok w →
      ∃ payload,
        w = u32be (47 + payload.length) ++ u32be cc_version ++ cc_auth_fixed ++
              hmd5_sig C s payload ++ payload ∧
        (hmd5_sig C s payload).length = 22) ∧
    (∀ msg table, 4 ≤ msg.length → u32beVal (msg.take 4) = cc_version →
      decode_table (msg.drop 4) true none = .ok table →
      basic_syntax_checks table true = .ok () →
      dictMem table authKey = false →
      from_wire C msg (some s) = .error .badAuth) ∧
    (∀ msg table, 4 ≤ msg.length → u32beVal (msg.take 4) = cc_version →
      decode_table (msg.drop 4) true none = .ok table →
      basic_syntax_checks table true = .ok () →
      dictMem table authKey = true →
      from_wire C msg none = .error .badAuth) ∧
    (∀ msg table, 43 ≤ msg.length → u32beVal (msg.take 4) = cc_version →
      decode_table (msg.drop 4) true none = .ok table →
      basic_syntax_checks table true = .ok () →
      dictMem table authKey = true →
      (msg.drop 4).take 21 ≠ cc_auth_fixed →
      from_wire C msg (some s) = .error .badAuth) ∧
    (∀ msg table, 43 ≤ msg.length → u32beVal (msg.take 4) = cc_version →
      decode_table (msg.drop 4) true none = .ok table →
      basic_syntax_checks table true = .ok () →
      dictMem table authKey = true →
      (msg.drop 4).take 21 = cc_auth_fixed →
      hmd5_sig C s ((msg.drop 4).drop 43) ≠ ((msg.drop 4).drop 21).take 22 →
      from_wire C msg (some s) = .error .badAuth) := by
  refine ⟨?_, ?_, ?_, ?_, ?_⟩
  · intro message w hw
    rw [to_wire] at hw
    rcases hg : dictGet (dictPop message authKey) ctrlKey with _ | cv
    · rw [hg] at hw
      simp at hw
    rw [hg] at hw
    cases cv with
    | table ctrl =>
      replace hw : (match to_wire_encrypt C (dictPop ctrl compKey)
          (encode_table (dictSet (dictPop message authKey) ctrlKey
            (.table (dictPop ctrl compKey))))
          (dictGet ctrl compKey) (some s) with
        | .error e => Except.error e
        | .ok u2 =>
          Except.ok (u32be (u32be cc_version ++
              encode_table [(authKey, PyVal.table [(hmd5Key,
                PyVal.bytes (hmd5_sig C s u2))])] ++ u2).length ++
            (u32be cc_version ++
              encode_table [(authKey, PyVal.table [(hmd5Key,
                PyVal.bytes (hmd5_sig C s u2))])] ++ u2))) = .ok w := hw
      rcases he : to_wire_encrypt C (dictPop ctrl compKey)
          (encode_table (dictSet (dictPop message authKey) ctrlKey
            (.table (dictPop ctrl compKey))))
          (dictGet ctrl compKey) (some s) with e | u2
      · rw [he] at hw
        simp at hw
      rw [he] at hw
      simp only [Except.ok.injEq] at hw
      have hsl := hmd5_sig_length C s u2 (hmac16 u2)
      refine ⟨u2, ?_, hsl⟩
      rw [← hw, auth_block_eq _ hsl]
      have hlen : (u32be cc_version ++ (cc_auth_fixed ++ hmd5_sig C s u2) ++
          u2).length = 47 + u2.length := by
        simp [List.length_append, u32be, cc_auth_fixed, hsl]
        omega
      rw [hlen]
      simp [List.append_assoc]
    | bytes b => simp at hw
    | str t => simp at hw
    | list vs => simp at hw
    | int i => simp at hw
    | bool b => simp at hw
  · intro msg table h4 hver hdec hbsc hnoauth
    rw [from_wire, if_neg (by omega), if_neg (by simp [hver])]
    simp only [hdec, hbsc, hnoauth]
    simp
  · intro msg table h4 hver hdec hbsc hauth
    rw [from_wire, if_neg (by omega), if_neg (by simp [hver])]
    simp only [hdec, hbsc, hauth]
    simp
  · intro msg table h43 hver hdec hbsc hauth hpref
    rw [from_wire, if_neg (by omega), if_neg (by simp [hver])]
    simp only [hdec, hbsc, hauth]
    rw [if_neg (by omega : ¬ msg.length < 43)]
    simp [hpref]
  · intro msg table h43 hver hdec hbsc hauth hpref hsig
    rw [from_wire, if_neg (by omega), if_neg (by simp [hver])]
    simp only [hdec, hbsc, hauth]
    rw [if_neg (by omega : ¬ msg.length < 43)]
    have hsig2 : hmd5_sig C s (List.drop 47 msg) ≠ List.take 22 (List.drop 25 msg) := by
      simpa [List.drop_drop] using hsig
    simp [hpref, hsig2]

/-- Top-level decode: `_decode_table(..., top_level=True)` on an encoded
well-formed body returns the body, stringifying exactly the `_data`
subtree. -/
theorem decode_table_top :
    ∀ (es : Dict), wf_top es = true →
      decode_table (encode_table es) true none = .ok es
  | [], _ => by simp [encode_table, decode_table]
  | (k, v) :: rest, hwf => by
    simp only [wf_top, Bool.and_eq_true, keyOk, decide_eq_true_eq,
      Bool.not_eq_true'] at hwf
    obtain ⟨⟨⟨⟨hk256, hkutf⟩, hnm⟩, hv⟩, hrest⟩ := hwf
    rw [encode_table]
    rw [decode_table]
    have hL : (k.length :: (k ++ encode_value v ++ encode_table rest)).length
        = 1 + k.length + (encode_value v).length + (encode_table rest).length := by
      simp [List.length_append]
      omega
    rw [dif_neg (by rw [hL]; omega)]
    have hkb : (k ++ encode_value v ++ encode_table rest).take k.length = k := by
      rw [List.append_assoc, List.take_left' rfl]
    rw [hkb, if_pos hkutf]
    have hdrop : (k.length :: (k ++ encode_value v ++ encode_table rest)).drop (k.length + 1)
        = encode_value v ++ encode_table rest := by
      rw [List.drop_succ_cons, List.append_assoc, List.drop_left' rfl]
    rw [hdrop]
    by_cases hk : k = dataKey
    · rw [show table_sub_ws true k none = some true by simp [table_sub_ws, hk]]
      have hv2 : wf_value true v = true := by
        simpa [hk] using hv
      rw [decode_encode_value true (some true) v (encode_table rest) hv2 (by simp)]
      show (match decode_table
              (List.drop (encode_value v).length (encode_value v ++ encode_table rest))
              true none with
            | Except.error e => Except.error e
            | Except.ok t => Except.ok (dictInsertFirst k v t)) = Except.ok ((k, v) :: rest)
      rw [List.drop_left, decode_table_top rest hrest]
      show Except.ok (dictInsertFirst k v rest) = Except.ok ((k, v) :: rest)
      rw [dictInsertFirst, dictGet_eq_none_of_not_mem rest k hnm]
    · rw [show table_sub_ws true k none = none by simp [table_sub_ws, hk]]
      have hv2 : wf_value false v = true := by
        simpa [hk] using hv
      rw [decode_encode_value false none v (encode_table rest) hv2 (by simp)]
      show (match decode_table
              (List.drop (encode_value v).length (encode_value v ++ encode_table rest))
              true none with
            | Except.error e => Except.error e
            | Except.ok t => Except.ok (dictInsertFirst k v t)) = Except.ok ((k, v) :: rest)
      rw [List.drop_left, decode_table_top rest hrest]
      show Except.ok (dictInsertFirst k v rest) = Except.ok ((k, v) :: rest)
      rw [dictInsertFirst, dictGet_eq_none_of_not_mem rest k hnm]
  termination_by es hwf => sizeOf es

theorem c6_auth_layout_witness :
    from_wire trivCrypto c6msg (some [107]) = .error .badAuth := by
  have h1 : c6msg.drop 4 = encode_table c6body := by decide
  have hdec : decode_table (c6msg.drop 4) true none = .ok c6body := by
    rw [h1]
    exact decode_table_top c6body (by decide)
  exact (c6_auth_layout trivCrypto [107] (fun p => rfl)).2.1 c6msg c6body
    (by decide) (by decide) hdec (by decide) (by decide)

theorem dictMem_pop_imp (d : Dict) (k k2 : List Nat)
    (h : dictMem (dictPop d k) k2 = true) : dictMem d k2 = true := by
  induction d with
  | nil => simpa [dictPop] using h
  | cons p rest ih =>
    obtain ⟨k0, v0⟩ := p
    rw [dictPop] at h
    by_cases hk : k0 = k
    · rw [if_pos hk] at h
      rw [dictMem]
      simp [h]
    · rw [if_neg hk] at h
      rw [dictMem] at h ⊢
      simp only [Bool.or_eq_true] at h ⊢
      rcases h with h | h
      · exact Or.inl h
      · exact Or.inr (ih h)

theorem wf_top_pop (d : Dict) (k : List Nat) (h : wf_top d = true) :
    wf_top (dictPop d k) = true := by
  induction d with
  | nil => simpa [dictPop] using h
  | cons p rest ih =>
    obtain ⟨k0, v0⟩ := p
    simp only [wf_top, Bool.and_eq_true, Bool.not_eq_true'] at h
    obtain ⟨⟨⟨hk0, hnm⟩, hv⟩, hrest⟩ := h
    rw [dictPop]
    by_cases hk : k0 = k
    · rw [if_pos hk]
      exact hrest
    · rw [if_neg hk]
      simp only [wf_top, Bool.and_eq_true, Bool.not_eq_true']
      refine ⟨⟨⟨hk0, ?_⟩, hv⟩, ih hrest⟩
      by_cases hm : dictMem (dictPop rest k) k0 = true
      · rw [dictMem_pop_imp rest k k0 hm] at hnm
        exact absurd hnm (by simp)
      · simpa using hm

theorem wf_entries_pop (b : Bool) (es : List (List Nat × PyVal)) (k : List Nat)
    (h : wf_entries b es = true) : wf_entries b (dictPop es k) = true := by
  induction es with
  | nil => simpa [dictPop] using h
  | cons p rest ih =>
    obtain ⟨k0, v0⟩ := p
    simp only [wf_entries, Bool.and_eq_true, Bool.not_eq_true'] at h
    obtain ⟨⟨⟨hk0, hnm⟩, hv⟩, hrest⟩ := h
    rw [dictPop]
    by_cases hk : k0 = k
    · rw [if_pos hk]
      exact hrest
    · rw [if_neg hk]
      simp only [wf_entries, Bool.and_eq_true, Bool.not_eq_true']
      refine ⟨⟨⟨hk0, ?_⟩, hv⟩, ih hrest⟩
      by_cases hm : dictMem (dictPop rest k) k0 = true
      · rw [dictMem_pop_imp rest k k0 hm] at hnm
        exact absurd hnm (by simp)
      · simpa using hm

theorem encode_table_pop_le (es : List (List Nat × PyVal)) (k : List Nat) :
    (encode_table (dictPop es k)).length ≤ (encode_table es).length := by
  induction es with
  | nil => simp [dictPop]
  | cons p rest ih =>
    obtain ⟨k0, v0⟩ := p
    rw [dictPop]
    by_cases hk : k0 = k
    · rw [if_pos hk]
      simp [encode_table, List.length_append]
      omega
    · rw [if_neg hk]
      simp only [encode_table, List.length_cons, List.length_append]
      omega

theorem wf_top_get (d : Dict) (k : List Nat) (v : PyVal)
    (hwf : wf_top d = true) (hg : dictGet d k = some v) :
    wf_value (decide (k = dataKey)) v = true := by
  induction d with
  | nil => simp [dictGet] at hg
  | cons p rest ih =>
    obtain ⟨k0, v0⟩ := p
    simp only [wf_top, Bool.and_eq_true, Bool.not_eq_true'] at hwf
    obtain ⟨⟨⟨hk0, hnm⟩, hv⟩, hrest⟩ := hwf
    rw [dictGet] at hg
    by_cases hk : k0 = k
    · rw [if_pos hk] at hg
      simp only [Option.some.injEq] at hg
      subst hg
      rw [← hk]
      exact hv
    · rw [if_neg hk] at hg
      exact ih hrest hg

theorem dictMem_set (d : Dict) (k k2 : List Nat) (v : PyVal) :
    dictMem (dictSet d k v) k2 = (dictMem d k2 || decide (k = k2)) := by
  induction d with
  | nil => simp [dictSet, dictMem]
  | cons p rest ih =>
    obtain ⟨k0, v0⟩ := p
    rw [dictSet]
    by_cases hk : k0 = k
    · rw [if_pos hk]
      subst hk
      simp [dictMem]
      tauto
    · rw [if_neg hk]
      rw [dictMem, dictMem, ih]
      cases hd : decide (k0 = k2) <;> simp

theorem wf_top_set_present (d : Dict) (k : List Nat) (v w : PyVal)
    (hwf : wf_top d = true) (hg : dictGet d k = some w)
    (hv : wf_value (decide (k = dataKey)) v = true) :
    wf_top (dictSet d k v) = true := by
  induction d with
  | nil => simp [dictGet] at hg
  | cons p rest ih =>
    obtain ⟨k0, v0⟩ := p
    simp only [wf_top, Bool.and_eq_true, Bool.not_eq_true'] at hwf
    obtain ⟨⟨⟨hk0, hnm⟩, hv0⟩, hrest⟩ := hwf
    rw [dictGet] at hg
    rw [dictSet]
    by_cases hk : k0 = k
    · rw [if_pos hk]
      simp only [wf_top, Bool.and_eq_true, Bool.not_eq_true']
      subst hk
      exact ⟨⟨⟨hk0, hnm⟩, hv⟩, hrest⟩
    · rw [if_neg hk] at hg ⊢
      simp only [wf_top, Bool.and_eq_true, Bool.not_eq_true']
      refine ⟨⟨⟨hk0, ?_⟩, hv0⟩, ih hrest hg⟩
      rw [dictMem_set rest k k0 v, hnm]
      simp
      intro hkk
      exact absurd (dictMem_of_get hg) (by rw [← hkk] at hnm; simp [hnm])

theorem wf_top_distinct (d : Dict) (h : wf_top d = true) :
    dictKeysDistinct d = true := by
  induction d with
  | nil => rfl
  | cons p rest ih =>
    obtain ⟨k0, v0⟩ := p
    simp only [wf_top, Bool.and_eq_true, Bool.not_eq_true'] at h
    obtain ⟨⟨⟨hk0, hnm⟩, hv⟩, hrest⟩ := h
    simp only [dictKeysDistinct, Bool.and_eq_true, Bool.not_eq_true']
    exact ⟨hnm, ih hrest⟩

/-- `to_wire`'s normalization preserves well-formedness and shape, drops
`_auth`, and rewires `_ctrl` to the `_comp`-popped table. -/
theorem prep_message_wf (m : Dict) (ctrl : Dict)
    (hctrl : dictGet (dictPop m authKey) ctrlKey = some (.table ctrl))
    (hwf : wf_message m = true) :
    wf_top (prep_message m) = true ∧
    message_shape (prep_message m) = true ∧
    dictMem (prep_message m) authKey = false ∧
    dictGet (prep_message m) ctrlKey = some (.table (dictPop ctrl compKey)) ∧
    prep_message m =
      dictSet (dictPop m authKey) ctrlKey (.table (dictPop ctrl compKey)) := by
  have hwf1 : wf_top m = true ∧ message_shape m = true := by
    simpa [wf_message, Bool.and_eq_true] using hwf
  obtain ⟨hwt, hshape⟩ := hwf1
  have hprep : prep_message m =
      dictSet (dictPop m authKey) ctrlKey (.table (dictPop ctrl compKey)) := by
    simp only [prep_message, hctrl]
  have hwtm1 : wf_top (dictPop m authKey) = true := wf_top_pop m authKey hwt
  have hvctrl : wf_value (decide (ctrlKey = dataKey)) (.table ctrl) = true :=
    wf_top_get _ _ _ hwtm1 hctrl
  rw [show decide (ctrlKey = dataKey) = false by decide] at hvctrl
  have hparts : (encode_table ctrl).length < 2 ^ 32 ∧ wf_entries false ctrl = true := by
    simpa [wf_value, Bool.and_eq_true] using hvctrl
  have hvctrl2 : wf_value (decide (ctrlKey = dataKey))
      (.table (dictPop ctrl compKey)) = true := by
    rw [show decide (ctrlKey = dataKey) = false by decide]
    simp only [wf_value, Bool.and_eq_true, decide_eq_true_eq]
    exact ⟨lt_of_le_of_lt (encode_table_pop_le ctrl compKey) hparts.1,
           wf_entries_pop false ctrl compKey hparts.2⟩
  have hwt2 : wf_top (prep_message m) = true := by
    rw [hprep]
    exact wf_top_set_present _ _ _ _ hwtm1 hctrl hvctrl2
  have hg_ctrl : dictGet (prep_message m) ctrlKey =
      some (.table (dictPop ctrl compKey)) := by
    rw [hprep]
    exact dictGet_set_eq _ _ _
  have hnam : dictMem (prep_message m) authKey = false := by
    rw [hprep, dictMem_set_ne _ ctrlKey authKey _ (by decide)]
    exact dictMem_pop_self m authKey (wf_top_distinct m hwt)
  have hg_data : dictGet (prep_message m) dataKey = dictGet m dataKey := by
    rw [hprep, dictGet_set_ne _ ctrlKey dataKey _ (by decide),
        dictGet_pop_ne _ authKey dataKey (by decide)]
  have hm_aes : dictMem (prep_message m) aes256Key = dictMem m aes256Key := by
    rw [hprep, dictMem_set_ne _ ctrlKey aes256Key _ (by decide),
        dictMem_pop_ne _ authKey aes256Key (by decide)]
  have hm_aesz : dictMem (prep_message m) aes256zKey = dictMem m aes256zKey := by
    rw [hprep, dictMem_set_ne _ ctrlKey aes256zKey _ (by decide),
        dictMem_pop_ne _ authKey aes256zKey (by decide)]
  have hshape2 : message_shape (prep_message m) = true := by
    simp only [message_shape, Bool.and_eq_true, Bool.not_eq_true'] at hshape ⊢
    rw [hg_ctrl, hg_data, hm_aes, hm_aesz]
    simp_all
  exact ⟨hwt2, hshape2, hnam, hg_ctrl, hprep⟩

/-- `_basic_syntax_checks` passes on any message of the modelled shape
whose `_auth`, if present, is a table. -/
theorem basic_syntax_checks_ok (m : Dict) (me : Bool)
    (hshape : message_shape m = true)
    (hauth : dictGet m authKey = none ∨ ∃ es, dictGet m authKey = some (.table es)) :
    basic_syntax_checks m me = .ok () := by
  simp only [message_shape, Bool.and_eq_true, Bool.not_eq_true'] at hshape
  have hga : dictGet m aes256Key = none := dictGet_eq_none_of_not_mem _ _ hshape.1.2
  have hgz : dictGet m aes256zKey = none := dictGet_eq_none_of_not_mem _ _ hshape.2
  have hA := hshape.1.1.1
  have hB := hshape.1.1.2
  rcases hauth with hauth | ⟨es, hauth⟩ <;>
  · simp only [basic_syntax_checks, hga, hgz, hauth]
    repeat' split
    all_goals try simp_all [pyTruthyOpt]
    all_goals rename_i heq
    all_goals repeat' split at heq
    all_goals simp_all [pyTruthyOpt]

/-- Round trip on the cleartext unsigned path: the decoded frame is the
normalized message. -/
theorem round_trip_plain_none (C : Crypto) (m ctrl : Dict)
    (hctrl : dictGet (dictPop m authKey) ctrlKey = some (.table ctrl))
    (hwf : wf_message m = true)
    (hpe : dictMem (dictPop ctrl compKey) encKey = false) :
    round_trip C m none = .ok (prep_message m) := by
  obtain ⟨hwt2, hshape2, hnam, hg_ctrl, hprep⟩ := prep_message_wf m ctrl hctrl hwf
  have htw : to_wire C m none =
      .ok (u32be (u32be cc_version ++ encode_table (prep_message m)).length ++
        (u32be cc_version ++ encode_table (prep_message m))) := by
    simp only [to_wire, hctrl]
    rw [to_wire_encrypt_plain C _ _ _ _ hpe]
    simp only [hprep]
  rw [round_trip, htw]
  have hdrop : (u32be (u32be cc_version ++ encode_table (prep_message m)).length ++
      (u32be cc_version ++ encode_table (prep_message m))).drop 4 =
      u32be cc_version ++ encode_table (prep_message m) := by
    rw [List.drop_left' (by simp [u32be])]
  show from_wire C _ none = _
  rw [hdrop]
  have hver : u32beVal ((u32be cc_version ++ encode_table (prep_message m)).take 4)
      = cc_version := by
    rw [List.take_left' (by simp [u32be]), u32beVal_u32be _ (by norm_num [cc_version])]
  have hrest : (u32be cc_version ++ encode_table (prep_message m)).drop 4 =
      encode_table (prep_message m) := by
    rw [List.drop_left' (by simp [u32be])]
  rw [from_wire, if_neg (by simp [u32be]), if_neg (by simp [hver])]
  simp only [hrest, decode_table_top _ hwt2,
    basic_syntax_checks_ok (prep_message m) true hshape2
      (Or.inl (dictGet_eq_none_of_not_mem _ _ hnam)),
    hnam]
  have hshape3 := hshape2
  simp only [message_shape, Bool.and_eq_true, Bool.not_eq_true'] at hshape3
  have hgz2 : dictGet (prep_message m) aes256zKey = none :=
    dictGet_eq_none_of_not_mem _ _ hshape3.2
  have hga2 : dictGet (prep_message m) aes256Key = none :=
    dictGet_eq_none_of_not_mem _ _ hshape3.1.2
  simp only [hgz2, hga2, hg_ctrl, Option.isSome_none, Bool.or_self, Bool.false_eq_true,
    if_false]
  rw [dictPop_not_mem _ _ hpe, dictSet_self _ _ _ hg_ctrl]

/-- Round trip on the signed cleartext path: the decoded frame keeps the
signature block in front of the normalized message. -/
theorem round_trip_signed_plain (C : Crypto) (m ctrl : Dict) (s : List Nat)
    (hctrl : dictGet (dictPop m authKey) ctrlKey = some (.table ctrl))
    (hwf : wf_message m = true)
    (hpe : dictMem (dictPop ctrl compKey) encKey = false)
    (hm16 : (C.hmacMd5 s (encode_table (prep_message m))).length = 16) :
    round_trip C m (some s) =
      .ok ((authKey, PyVal.table [(hmd5Key,
        PyVal.bytes (hmd5_sig C s (encode_table (prep_message m))))]) ::
        prep_message m) := by
  obtain ⟨hwt2, hshape2, hnam, hg_ctrl, hprep⟩ := prep_message_wf m ctrl hctrl hwf
  have hsl : (hmd5_sig C s (encode_table (prep_message m))).length = 22 :=
    hmd5_sig_length C s _ hm16
  set sig := hmd5_sig C s (encode_table (prep_message m)) with hsig
  set body := encode_table (prep_message m) with hbody
  set tbl : PyVal := PyVal.table [(hmd5Key, PyVal.bytes sig)] with htbl
  have hablock : encode_table [(authKey, tbl)] = cc_auth_fixed ++ sig :=
    auth_block_eq sig hsl
  have htw : to_wire C m (some s) =
      .ok (u32be (u32be cc_version ++ encode_table [(authKey, tbl)] ++ body).length ++
        (u32be cc_version ++ encode_table [(authKey, tbl)] ++ body)) := by
    simp only [to_wire, hctrl]
    rw [to_wire_encrypt_plain C _ _ _ _ hpe]
    simp only [hprep, htbl, hsig, hbody]
  rw [round_trip, htw]
  show from_wire C _ (some s) = _
  have hdrop : (u32be (u32be cc_version ++ encode_table [(authKey, tbl)] ++ body).length ++
      (u32be cc_version ++ encode_table [(authKey, tbl)] ++ body)).drop 4 =
      u32be cc_version ++ encode_table [(authKey, tbl)] ++ body := by
    rw [List.drop_left' (by simp [u32be])]
  rw [hdrop]
  have hrest : (u32be cc_version ++ encode_table [(authKey, tbl)] ++ body).drop 4 =
      encode_table [(authKey, tbl)] ++ body := by
    rw [List.append_assoc, List.drop_left' (by simp [u32be])]
  have hver : u32beVal (List.take 4 (u32be cc_version ++
      (encode_table [(authKey, tbl)] ++ body))) = cc_version := by
    rw [List.take_left' (by simp [u32be]), u32beVal_u32be _ (by norm_num [cc_version])]
  have hdecode : encode_table [(authKey, tbl)] ++ body =
      encode_table ((authKey, tbl) :: prep_message m) := by
    rw [hbody, ← encode_table_append]
    rfl
  have hvb : wf_value false (PyVal.bytes sig) = true := by
    simp [wf_value, hsl]
  have hko : keyOk hmd5Key = true := by decide
  have hent : wf_entries false [(hmd5Key, PyVal.bytes sig)] = true := by
    simp [wf_entries, hvb, hko, dictMem]
  have hlen32 : (encode_table [(hmd5Key, PyVal.bytes sig)]).length < 2 ^ 32 := by
    have hkl : hmd5Key.length = 4 := by decide
    simp [encode_table, encode_value, u32be, List.length_append, hsl, hkl]
  have hvt : wf_value (decide (authKey = dataKey)) tbl = true := by
    rw [show decide (authKey = dataKey) = false by decide, htbl]
    simp [wf_value, hent]
    simpa using hlen32
  have hwtop : wf_top ((authKey, tbl) :: prep_message m) = true := by
    simp only [wf_top, Bool.and_eq_true, Bool.not_eq_true']
    exact ⟨⟨⟨by decide, hnam⟩, hvt⟩, hwt2⟩
  have hshapeA : message_shape ((authKey, tbl) :: prep_message m) = true := by
    simp only [message_shape, Bool.and_eq_true, Bool.not_eq_true'] at hshape2 ⊢
    refine ⟨⟨⟨?_, ?_⟩, ?_⟩, ?_⟩
    · rw [dictGet, if_neg (by decide)]
      exact hshape2.1.1.1
    · rw [dictGet, if_neg (by decide)]
      exact hshape2.1.1.2
    · rw [dictMem]
      have hne : decide (authKey = aes256Key) = false := by decide
      simp [hne, hshape2.1.2]
    · rw [dictMem]
      have hne : decide (authKey = aes256zKey) = false := by decide
      simp [hne, hshape2.2]
  have hbsc : basic_syntax_checks ((authKey, tbl) :: prep_message m) true = .ok () :=
    basic_syntax_checks_ok _ _ hshapeA
      (Or.inr ⟨[(hmd5Key, PyVal.bytes sig)], by rw [dictGet, if_pos rfl, htbl]⟩)
  have hmemA : dictMem ((authKey, tbl) :: prep_message m) authKey = true := by
    rw [dictMem]
    simp
  have hlen43 : ¬ (u32be cc_version ++ encode_table [(authKey, tbl)] ++
      body).length < 43 := by
    rw [hablock]
    simp [u32be, List.length_append]
    have h21 : cc_auth_fixed.length = 21 := by decide
    omega
  rw [from_wire, if_neg (by simp [u32be]), if_neg (by simp [hver])]
  simp only [hrest, hdecode, decode_table_top _ hwtop, hbsc, hmemA]
  have htake21 : (encode_table [(authKey, tbl)] ++ body).take 21 = cc_auth_fixed := by
    rw [hablock, List.append_assoc, List.take_left' (by decide)]
  have hdrop21 : ((encode_table [(authKey, tbl)] ++ body).drop 21).take 22 = sig := by
    rw [hablock, List.append_assoc, List.drop_left' (by decide),
        List.take_left' hsl]
  have hdrop43 : (encode_table [(authKey, tbl)] ++ body).drop 43 = body := by
    rw [hablock]
    rw [show (cc_auth_fixed ++ sig) ++ body = cc_auth_fixed ++ (sig ++ body) from
      List.append_assoc _ _ _]
    rw [show (43 : Nat) = 21 + 22 by norm_num, ← List.drop_drop]
    rw [List.drop_left' (by decide), List.drop_left' hsl]
  rw [if_neg hlen43]
  rw [← hdecode]
  simp only [htake21, hdrop21, hdrop43]
  rw [if_neg (show ¬ cc_auth_fixed ≠ cc_auth_fixed by simp)]
  rw [if_neg (show ¬ hmd5_sig C s body ≠ sig by simp [hsig])]
  simp only [Option.isSome_some, Bool.true_or, Bool.not_true, Bool.false_eq_true,
    if_false, if_true]
  have hgetA : ∀ k2, authKey ≠ k2 →
      dictGet ((authKey, tbl) :: prep_message m) k2 = dictGet (prep_message m) k2 := by
    intro k2 hk
    rw [dictGet, if_neg hk]
  have hshape3 := hshape2
  simp only [message_shape, Bool.and_eq_true, Bool.not_eq_true'] at hshape3
  have hgz2 : dictGet ((authKey, tbl) :: prep_message m) aes256zKey = none := by
    rw [hgetA _ (by decide)]
    exact dictGet_eq_none_of_not_mem _ _ hshape3.2
  have hga2 : dictGet ((authKey, tbl) :: prep_message m) aes256Key = none := by
    rw [hgetA _ (by decide)]
    exact dictGet_eq_none_of_not_mem _ _ hshape3.1.2
  have hgc2 : dictGet ((authKey, tbl) :: prep_message m) ctrlKey =
      some (.table (dictPop ctrl compKey)) := by
    rw [hgetA _ (by decide)]
    exact hg_ctrl
  simp only [hgz2, hga2, hgc2]
  rw [dictPop_not_mem _ _ hpe]
  rw [show dictSet ((authKey, tbl) :: prep_message m) ctrlKey
        (.table (dictPop ctrl compKey)) =
      (authKey, tbl) :: dictSet (prep_message m) ctrlKey
        (.table (dictPop ctrl compKey)) from by
    rw [dictSet, if_neg (by decide)]]
  rw [dictSet_self _ _ _ hg_ctrl]

theorem encrypt_message_parts (C : Crypto) (key inner : List Nat)
    (hiv : C.iv.length = 16)
    (henclen : ∀ x, (C.aesEnc key C.iv x).length = x.length) :
    (encrypt_message C key inner).take 16 = C.iv ∧
    (encrypt_message C key inner).drop 16 =
      C.aesEnc key C.iv (inner ++ List.replicate
        ((inner.length + 15) - (inner.length + 15) % 16 - inner.length) 0) ∧
    (encrypt_message C key inner).length % 16 = 0 ∧
    16 ≤ (encrypt_message C key inner).length := by
  refine ⟨?_, ?_, ?_, ?_⟩
  · rw [encrypt_message, List.take_left' hiv]
  · rw [encrypt_message, List.drop_left' hiv]
  · rw [encrypt_message]
    simp only [List.length_append, hiv, henclen, List.length_replicate]
    omega
  · rw [encrypt_message]
    simp [List.length_append, hiv]

/-- The decrypt-and-decode tail of `from_wire` recovers the encoded
table whose ciphertext `to_wire` produced, forcing `_enc` to `'1'`. -/
theorem from_wire_encrypted_spec (C : Crypto) (s : List Nat) (m2 ctrl2t : Dict)
    (X : List Nat) (compressed : Bool)
    (hiv : C.iv.length = 16)
    (henclen : ∀ x, (C.aesEnc (key_from_secret C s) C.iv x).length = x.length)
    (hdecenc : ∀ x, C.aesDec (key_from_secret C s) C.iv
      (C.aesEnc (key_from_secret C s) C.iv x) = x)
    (hsz : (encode_table m2).length < 2 ^ 32)
    (hXc : compressed = true → ∀ junk, C.decompress (X ++ junk) = encode_table m2)
    (hXu : compressed = false → X = encode_table m2)
    (hwt2 : wf_top m2 = true)
    (hshape2 : message_shape m2 = true)
    (hnam : dictGet m2 authKey = none)
    (hg_ctrl : dictGet m2 ctrlKey = some (.table ctrl2t)) :
    from_wire_encrypted C
      (.bytes (encrypt_message C (key_from_secret C s)
        (u32be (encode_table m2).length ++ X)))
      compressed (some s) =
      .ok (dictSet m2 ctrlKey (.table (dictSet ctrl2t encKey (.str [49])))) := by
  obtain ⟨htake, hdropp, hmod, hge⟩ := encrypt_message_parts C (key_from_secret C s)
    (u32be (encode_table m2).length ++ X) hiv henclen
  set inner := u32be (encode_table m2).length ++ X with hinner
  set ed := encrypt_message C (key_from_secret C s) inner with hed
  set pad := List.replicate ((inner.length + 15) - (inner.length + 15) % 16 -
    inner.length) 0 with hpad
  have hwire : decrypt_message C (key_from_secret C s) ed = inner ++ pad := by
    rw [decrypt_message]
    simp only [cc_aes256_blocksize]
    rw [htake, hdropp, hdecenc]
  have hbsc : basic_syntax_checks m2 false = .ok () :=
    basic_syntax_checks_ok m2 false hshape2 (Or.inl hnam)
  rw [from_wire_encrypted]
  rw [if_neg (by simp [cc_aes256_blocksize, hmod])]
  simp only [hwire]
  rw [if_neg (by simp [hinner, u32be, List.length_append])]
  have htk4 : (inner ++ pad).take 4 = u32be (encode_table m2).length := by
    rw [hinner, List.append_assoc, List.take_left' (by simp [u32be])]
  have hdp4 : (inner ++ pad).drop 4 = X ++ pad := by
    rw [hinner, List.append_assoc, List.drop_left' (by simp [u32be])]
  rw [htk4, u32beVal_u32be _ hsz, hdp4]
  by_cases hc : compressed = true
  · simp only [hc, if_true]
    rw [hXc hc pad]
    rw [if_neg (by omega)]
    rw [List.take_length]
    simp only [decode_table_top _ hwt2, hbsc, hg_ctrl]
  · have hc0 : compressed = false := by simpa using hc
    simp only [hc0, Bool.false_eq_true, if_false]
    rw [hXu hc0]
    rw [if_neg (by simp [List.length_append])]
    rw [List.take_left' rfl]
    simp only [decode_table_top _ hwt2, hbsc, hg_ctrl]

/-- The outer (signed) layer of a `to_wire`-produced encrypted frame:
`from_wire` verifies the signature and hands the ciphertext to the
encrypted tail. -/
theorem from_wire_enc_outer (C : Crypto) (s ed : List Nat) (field : List Nat)
    (compressed : Bool)
    (hfc : (field = aes256zKey ∧ compressed = true) ∨
           (field = aes256Key ∧ compressed = false))
    (hm16 : (C.hmacMd5 s (encode_table [(field, PyVal.bytes ed)])).length = 16)
    (hedsz : ed.length < 2 ^ 32)
    (hedne : ed ≠ []) :
    from_wire C (u32be cc_version ++
        encode_table [(authKey, PyVal.table [(hmd5Key,
          PyVal.bytes (hmd5_sig C s (encode_table [(field, PyVal.bytes ed)])))])] ++
        encode_table [(field, PyVal.bytes ed)]) (some s) =
      from_wire_encrypted C (.bytes ed) compressed (some s) := by
  have hedemp : ed.isEmpty = false := by
    cases ed
    · exact absurd rfl hedne
    · rfl
  rcases hfc with ⟨hf, hcp⟩ | ⟨hf, hcp⟩ <;> subst hf <;> subst hcp
  ·
    have hsl : (hmd5_sig C s (encode_table [(aes256zKey, PyVal.bytes ed)])).length = 22 :=
      hmd5_sig_length C s _ hm16
    set U2 := encode_table [(aes256zKey, PyVal.bytes ed)] with hU2
    set sig := hmd5_sig C s U2 with hsig
    set tbl : PyVal := PyVal.table [(hmd5Key, PyVal.bytes sig)] with htbl
    have hablock : encode_table [(authKey, tbl)] = cc_auth_fixed ++ sig :=
      auth_block_eq sig hsl
    have hrest : (u32be cc_version ++ encode_table [(authKey, tbl)] ++ U2).drop 4 =
        encode_table [(authKey, tbl)] ++ U2 := by
      rw [List.append_assoc, List.drop_left' (by simp [u32be])]
    have hver : u32beVal (List.take 4 (u32be cc_version ++
        (encode_table [(authKey, tbl)] ++ U2))) = cc_version := by
      rw [List.take_left' (by simp [u32be]), u32beVal_u32be _ (by norm_num [cc_version])]
    have hdecode : encode_table [(authKey, tbl)] ++ U2 =
        encode_table ((authKey, tbl) :: [(aes256zKey, PyVal.bytes ed)]) := by
      rw [hU2, ← encode_table_append]
      rfl
    have hvb : wf_value false (PyVal.bytes sig) = true := by
      simp [wf_value, hsl]
    have hent : wf_entries false [(hmd5Key, PyVal.bytes sig)] = true := by
      have hko : keyOk hmd5Key = true := by decide
      simp [wf_entries, hvb, hko, dictMem]
    have hlen32 : (encode_table [(hmd5Key, PyVal.bytes sig)]).length < 2 ^ 32 := by
      have hkl : hmd5Key.length = 4 := by decide
      simp [encode_table, encode_value, u32be, List.length_append, hsl, hkl]
    have hvt : wf_value (decide (authKey = dataKey)) tbl = true := by
      rw [show decide (authKey = dataKey) = false by decide, htbl]
      simp [wf_value, hent]
      simpa using hlen32
    have hnamT : dictMem [(aes256zKey, PyVal.bytes ed)] authKey = false := by
      rw [dictMem]
      simp [dictMem]
      decide
    have hwtT : wf_top [(aes256zKey, PyVal.bytes ed)] = true := by
      simp only [wf_top, Bool.and_eq_true, Bool.not_eq_true']
      refine ⟨⟨⟨by decide, by rfl⟩, ?_⟩, by trivial⟩
      rw [show decide (aes256zKey = dataKey) = false by decide]
      simp [wf_value]
      simpa using hedsz
    have hwtop : wf_top ((authKey, tbl) :: [(aes256zKey, PyVal.bytes ed)]) = true := by
      simp only [wf_top, Bool.and_eq_true, Bool.not_eq_true']
      exact ⟨⟨⟨by decide, hnamT⟩, hvt⟩,
        by simpa [wf_top, Bool.and_eq_true, Bool.not_eq_true'] using hwtT⟩
    have hgauth : dictGet ((authKey, tbl) :: [(aes256zKey, PyVal.bytes ed)]) authKey
        = some tbl := by
      rw [dictGet, if_pos rfl]
    have hgal : dictGet ((authKey, tbl) :: [(aes256zKey, PyVal.bytes ed)]) aes256Key
        = none := by
      rw [dictGet, if_neg (by decide), dictGet, if_neg (by decide)]
      rfl
    have hgzl : dictGet ((authKey, tbl) :: [(aes256zKey, PyVal.bytes ed)]) aes256zKey
        = some (PyVal.bytes ed) := by
      rw [dictGet, if_neg (by decide), dictGet, if_pos rfl]
    have hbscT : basic_syntax_checks
        ((authKey, tbl) :: [(aes256zKey, PyVal.bytes ed)]) true = .ok () := by
      simp [basic_syntax_checks, hgal, hgzl, hgauth, pyTruthyOpt, pyTruthy,
        hedemp, htbl]
    have hmemA : dictMem ((authKey, tbl) :: [(aes256zKey, PyVal.bytes ed)]) authKey
        = true := by
      rw [dictMem]
      simp
    have hlen43 : ¬ (u32be cc_version ++ encode_table [(authKey, tbl)] ++
        U2).length < 43 := by
      rw [hablock]
      simp [u32be, List.length_append]
      have h21 : cc_auth_fixed.length = 21 := by decide
      omega
    rw [from_wire, if_neg (by simp [u32be]), if_neg (by simp [hver])]
    simp only [hrest, hdecode, decode_table_top _ hwtop, hbscT, hmemA]
    rw [if_neg hlen43]
    rw [← hdecode]
    have htake21 : List.take 21 (encode_table [(authKey, tbl)] ++ U2)
        = cc_auth_fixed := by
      rw [hablock, List.append_assoc, List.take_left' (by decide)]
    have hdrop21 : List.take 22 (List.drop 21 (encode_table [(authKey, tbl)] ++ U2))
        = sig := by
      rw [hablock, List.append_assoc, List.drop_left' (by decide),
          List.take_left' hsl]
    have hdrop43 : List.drop 43 (encode_table [(authKey, tbl)] ++ U2) = U2 := by
      rw [hablock,
          show (cc_auth_fixed ++ sig) ++ U2 = cc_auth_fixed ++ (sig ++ U2) from
            List.append_assoc _ _ _,
          show (43 : Nat) = 21 + 22 by norm_num, ← List.drop_drop,
          List.drop_left' (by decide), List.drop_left' hsl]
    simp only [htake21, hdrop21, hdrop43]
    rw [if_neg (show ¬ cc_auth_fixed ≠ cc_auth_fixed by simp)]
    rw [if_neg (show ¬ hmd5_sig C s U2 ≠ sig by simp [hsig])]
    simp only [Option.isSome_some, Bool.true_or, Bool.not_true, Bool.false_eq_true,
      if_false, if_true]
    simp only [hgzl]
  ·
    have hsl : (hmd5_sig C s (encode_table [(aes256Key, PyVal.bytes ed)])).length = 22 :=
      hmd5_sig_length C s _ hm16
    set U2 := encode_table [(aes256Key, PyVal.bytes ed)] with hU2
    set sig := hmd5_sig C s U2 with hsig
    set tbl : PyVal := PyVal.table [(hmd5Key, PyVal.bytes sig)] with htbl
    have hablock : encode_table [(authKey, tbl)] = cc_auth_fixed ++ sig :=
      auth_block_eq sig hsl
    have hrest : (u32be cc_version ++ encode_table [(authKey, tbl)] ++ U2).drop 4 =
        encode_table [(authKey, tbl)] ++ U2 := by
      rw [List.append_assoc, List.drop_left' (by simp [u32be])]
    have hver : u32beVal (List.take 4 (u32be cc_version ++
        (encode_table [(authKey, tbl)] ++ U2))) = cc_version := by
      rw [List.take_left' (by simp [u32be]), u32beVal_u32be _ (by norm_num [cc_version])]
    have hdecode : encode_table [(authKey, tbl)] ++ U2 =
        encode_table ((authKey, tbl) :: [(aes256Key, PyVal.bytes ed)]) := by
      rw [hU2, ← encode_table_append]
      rfl
    have hvb : wf_value false (PyVal.bytes sig) = true := by
      simp [wf_value, hsl]
    have hent : wf_entries false [(hmd5Key, PyVal.bytes sig)] = true := by
      have hko : keyOk hmd5Key = true := by decide
      simp [wf_entries, hvb, hko, dictMem]
    have hlen32 : (encode_table [(hmd5Key, PyVal.bytes sig)]).length < 2 ^ 32 := by
      have hkl : hmd5Key.length = 4 := by decide
      simp [encode_table, encode_value, u32be, List.length_append, hsl, hkl]
    have hvt : wf_value (decide (authKey = dataKey)) tbl = true := by
      rw [show decide (authKey = dataKey) = false by decide, htbl]
      simp [wf_value, hent]
      simpa using hlen32
    have hnamT : dictMem [(aes256Key, PyVal.bytes ed)] authKey = false := by
      rw [dictMem]
      simp [dictMem]
      decide
    have hwtT : wf_top [(aes256Key, PyVal.bytes ed)] = true := by
      simp only [wf_top, Bool.and_eq_true, Bool.not_eq_true']
      refine ⟨⟨⟨by decide, by rfl⟩, ?_⟩, by trivial⟩
      rw [show decide (aes256Key = dataKey) = false by decide]
      simp [wf_value]
      simpa using hedsz
    have hwtop : wf_top ((authKey, tbl) :: [(aes256Key, PyVal.bytes ed)]) = true := by
      simp only [wf_top, Bool.and_eq_true, Bool.not_eq_true']
      exact ⟨⟨⟨by decide, hnamT⟩, hvt⟩,
        by simpa [wf_top, Bool.and_eq_true, Bool.not_eq_true'] using hwtT⟩
    have hgauth : dictGet ((authKey, tbl) :: [(aes256Key, PyVal.bytes ed)]) authKey
        = some tbl := by
      rw [dictGet, if_pos rfl]
    have hgzl : dictGet ((authKey, tbl) :: [(aes256Key, PyVal.bytes ed)]) aes256zKey
        = none := by
      rw [dictGet, if_neg (by decide), dictGet, if_neg (by decide)]
      rfl
    have hgal : dictGet ((authKey, tbl) :: [(aes256Key, PyVal.bytes ed)]) aes256Key
        = some (PyVal.bytes ed) := by
      rw [dictGet, if_neg (by decide), dictGet, if_pos rfl]
    have hbscT : basic_syntax_checks
        ((authKey, tbl) :: [(aes256Key, PyVal.bytes ed)]) true = .ok () := by
      simp [basic_syntax_checks, hgal, hgzl, hgauth, pyTruthyOpt, pyTruthy,
        hedemp, htbl]
    have hmemA : dictMem ((authKey, tbl) :: [(aes256Key, PyVal.bytes ed)]) authKey
        = true := by
      rw [dictMem]
      simp
    have hlen43 : ¬ (u32be cc_version ++ encode_table [(authKey, tbl)] ++
        U2).length < 43 := by
      rw [hablock]
      simp [u32be, List.length_append]
      have h21 : cc_auth_fixed.length = 21 := by decide
      omega
    rw [from_wire, if_neg (by simp [u32be]), if_neg (by simp [hver])]
    simp only [hrest, hdecode, decode_table_top _ hwtop, hbscT, hmemA]
    rw [if_neg hlen43]
    rw [← hdecode]
    have htake21 : List.take 21 (encode_table [(authKey, tbl)] ++ U2)
        = cc_auth_fixed := by
      rw [hablock, List.append_assoc, List.take_left' (by decide)]
    have hdrop21 : List.take 22 (List.drop 21 (encode_table [(authKey, tbl)] ++ U2))
        = sig := by
      rw [hablock, List.append_assoc, List.drop_left' (by decide),
          List.take_left' hsl]
    have hdrop43 : List.drop 43 (encode_table [(authKey, tbl)] ++ U2) = U2 := by
      rw [hablock,
          show (cc_auth_fixed ++ sig) ++ U2 = cc_auth_fixed ++ (sig ++ U2) from
            List.append_assoc _ _ _,
          show (43 : Nat) = 21 + 22 by norm_num, ← List.drop_drop,
          List.drop_left' (by decide), List.drop_left' hsl]
    simp only [htake21, hdrop21, hdrop43]
    rw [if_neg (show ¬ cc_auth_fixed ≠ cc_auth_fixed by simp)]
    rw [if_neg (show ¬ hmd5_sig C s U2 ≠ sig by simp [hsig])]
    simp only [Option.isSome_some, Bool.true_or, Bool.not_true, Bool.false_eq_true,
      if_false, if_true]
    simp only [hgzl, hgal]

/-- Round trip on the encrypted path (`_enc` set in `_ctrl`): the
decoded frame is the normalized message with `_ctrl['_enc']` forced to
the string `'1'`. -/
theorem round_trip_encrypted (C : Crypto) (m ctrl : Dict) (s : List Nat)
    (hctrl : dictGet (dictPop m authKey) ctrlKey = some (.table ctrl))
    (hwf : wf_message m = true)
    (hpe : dictMem (dictPop ctrl compKey) encKey = true)
    (hiv : C.iv.length = 16)
    (henclen : ∀ x, (C.aesEnc (key_from_secret C s) C.iv x).length = x.length)
    (hdecenc : ∀ x, C.aesDec (key_from_secret C s) C.iv
      (C.aesEnc (key_from_secret C s) C.iv x) = x)
    (hdecomp : ∀ x junk, C.decompress (C.compress x ++ junk) = x)
    (hm16 : ∀ p, (C.hmacMd5 s p).length = 16)
    (hsz : (encode_table (prep_message m)).length < 2 ^ 32)
    (hcsz : (C.compress (encode_table (prep_message m))).length + 100 < 2 ^ 32)
    (hbsz : (encode_table (prep_message m)).length + 100 < 2 ^ 32) :
    round_trip C m (some s) =
      .ok (dictSet (prep_message m) ctrlKey
        (.table (dictSet (dictPop ctrl compKey) encKey (.str [49])))) := by
  obtain ⟨hwt2, hshape2, hnam, hg_ctrl, hprep⟩ := prep_message_wf m ctrl hctrl hwf
  by_cases hwc : pyTruthyOpt (dictGet ctrl compKey) = true
  ·
    have htwe : to_wire_encrypt C (dictPop ctrl compKey)
        (encode_table (prep_message m)) (dictGet ctrl compKey) (some s) =
        .ok (encode_table [(aes256zKey, PyVal.bytes (encrypt_message C (key_from_secret C s) (u32be (encode_table (prep_message m)).length ++ C.compress (encode_table (prep_message m)))))]) := by
      rw [to_wire_encrypt, if_pos hpe]
      simp only [hwc, if_true]
    have htw : to_wire C m (some s) = .ok (u32be (u32be cc_version ++ encode_table [(authKey, PyVal.table [(hmd5Key, PyVal.bytes (hmd5_sig C s (encode_table [(aes256zKey, PyVal.bytes (encrypt_message C (key_from_secret C s) (u32be (encode_table (prep_message m)).length ++ C.compress (encode_table (prep_message m)))))])))])] ++ encode_table [(aes256zKey, PyVal.bytes (encrypt_message C (key_from_secret C s) (u32be (encode_table (prep_message m)).length ++ C.compress (encode_table (prep_message m)))))]).length ++ (u32be cc_version ++ encode_table [(authKey, PyVal.table [(hmd5Key, PyVal.bytes (hmd5_sig C s (encode_table [(aes256zKey, PyVal.bytes (encrypt_message C (key_from_secret C s) (u32be (encode_table (prep_message m)).length ++ C.compress (encode_table (prep_message m)))))])))])] ++ encode_table [(aes256zKey, PyVal.bytes (encrypt_message C (key_from_secret C s) (u32be (encode_table (prep_message m)).length ++ C.compress (encode_table (prep_message m)))))])) := by
      simp only [to_wire, hctrl]
      rw [show encode_table (dictSet (dictPop m authKey) ctrlKey
            (PyVal.table (dictPop ctrl compKey))) = encode_table (prep_message m) from
        by rw [← hprep]]
      rw [htwe]
    have hedlen : (encrypt_message C (key_from_secret C s) (u32be (encode_table (prep_message m)).length ++ C.compress (encode_table (prep_message m)))).length ≤ (C.compress (encode_table (prep_message m))).length + 35 := by
      rw [encrypt_message]
      simp [List.length_append, hiv, henclen, List.length_replicate, u32be]
      omega
    have hedsz : (encrypt_message C (key_from_secret C s) (u32be (encode_table (prep_message m)).length ++ C.compress (encode_table (prep_message m)))).length < 2 ^ 32 := by
      have hb := hcsz
      omega
    have hedne : (encrypt_message C (key_from_secret C s) (u32be (encode_table (prep_message m)).length ++ C.compress (encode_table (prep_message m)))) ≠ [] := by
      have h16 := (encrypt_message_parts C (key_from_secret C s)
        (u32be (encode_table (prep_message m)).length ++ C.compress (encode_table (prep_message m))) hiv henclen).2.2.2
      intro h
      rw [h] at h16
      simp at h16
    rw [round_trip, htw]
    show from_wire C _ (some s) = _
    rw [List.drop_left' (by simp [u32be])]
    rw [from_wire_enc_outer C s (encrypt_message C (key_from_secret C s) (u32be (encode_table (prep_message m)).length ++ C.compress (encode_table (prep_message m)))) aes256zKey true (Or.inl ⟨rfl, rfl⟩) (hm16 _) hedsz hedne]
    exact from_wire_encrypted_spec C s (prep_message m) (dictPop ctrl compKey)
      (C.compress (encode_table (prep_message m))) true hiv henclen hdecenc hsz (fun _ junk => hdecomp (encode_table (prep_message m)) junk) (fun h => nomatch h) hwt2 hshape2
      (dictGet_eq_none_of_not_mem _ _ hnam) hg_ctrl
  ·
    have htwe : to_wire_encrypt C (dictPop ctrl compKey)
        (encode_table (prep_message m)) (dictGet ctrl compKey) (some s) =
        .ok (encode_table [(aes256Key, PyVal.bytes (encrypt_message C (key_from_secret C s) (u32be (encode_table (prep_message m)).length ++ encode_table (prep_message m))))]) := by
      rw [to_wire_encrypt, if_pos hpe]
      have hwc0 : pyTruthyOpt (dictGet ctrl compKey) = false := by
        simpa using hwc
      simp only [hwc0, Bool.false_eq_true, if_false]
    have htw : to_wire C m (some s) = .ok (u32be (u32be cc_version ++ encode_table [(authKey, PyVal.table [(hmd5Key, PyVal.bytes (hmd5_sig C s (encode_table [(aes256Key, PyVal.bytes (encrypt_message C (key_from_secret C s) (u32be (encode_table (prep_message m)).length ++ encode_table (prep_message m))))])))])] ++ encode_table [(aes256Key, PyVal.bytes (encrypt_message C (key_from_secret C s) (u32be (encode_table (prep_message m)).length ++ encode_table (prep_message m))))]).length ++ (u32be cc_version ++ encode_table [(authKey, PyVal.table [(hmd5Key, PyVal.bytes (hmd5_sig C s (encode_table [(aes256Key, PyVal.bytes (encrypt_message C (key_from_secret C s) (u32be (encode_table (prep_message m)).length ++ encode_table (prep_message m))))])))])] ++ encode_table [(aes256Key, PyVal.bytes (encrypt_message C (key_from_secret C s) (u32be (encode_table (prep_message m)).length ++ encode_table (prep_message m))))])) := by
      simp only [to_wire, hctrl]
      rw [show encode_table (dictSet (dictPop m authKey) ctrlKey
            (PyVal.table (dictPop ctrl compKey))) = encode_table (prep_message m) from
        by rw [← hprep]]
      rw [htwe]
    have hedlen : (encrypt_message C (key_from_secret C s) (u32be (encode_table (prep_message m)).length ++ encode_table (prep_message m))).length ≤ (encode_table (prep_message m)).length + 35 := by
      rw [encrypt_message]
      simp [List.length_append, hiv, henclen, List.length_replicate, u32be]
      omega
    have hedsz : (encrypt_message C (key_from_secret C s) (u32be (encode_table (prep_message m)).length ++ encode_table (prep_message m))).length < 2 ^ 32 := by
      have hb := hbsz
      omega
    have hedne : (encrypt_message C (key_from_secret C s) (u32be (encode_table (prep_message m)).length ++ encode_table (prep_message m))) ≠ [] := by
      have h16 := (encrypt_message_parts C (key_from_secret C s)
        (u32be (encode_table (prep_message m)).length ++ encode_table (prep_message m)) hiv henclen).2.2.2
      intro h
      rw [h] at h16
      simp at h16
    rw [round_trip, htw]
    show from_wire C _ (some s) = _
    rw [List.drop_left' (by simp [u32be])]
    rw [from_wire_enc_outer C s (encrypt_message C (key_from_secret C s) (u32be (encode_table (prep_message m)).length ++ encode_table (prep_message m))) aes256Key false (Or.inr ⟨rfl, rfl⟩) (hm16 _) hedsz hedne]
    exact from_wire_encrypted_spec C s (prep_message m) (dictPop ctrl compKey)
      (encode_table (prep_message m)) false hiv henclen hdecenc hsz (fun h => nomatch h) (fun _ => rfl) hwt2 hshape2
      (dictGet_eq_none_of_not_mem _ _ hnam) hg_ctrl

theorem c2Crypto_decompress (x junk : List Nat) :
    c2Crypto.decompress (c2Crypto.compress x ++ junk) = x := by
  show ((((x.map (fun b => b + 1)) ++ [0]) ++ junk).takeWhile
      (fun b => decide (b ≠ 0))).map (fun b => b - 1) = x
  induction x with
  | nil => rfl
  | cons a t ih =>
    simp only [List.map_cons, List.cons_append, List.takeWhile_cons]
    rw [if_pos (by simp)]
    simp only [List.map_cons, Nat.add_sub_cancel, List.cons.injEq, true_and]
    exact ih

/-- The full round trip on any path, expressed against `post_decode`. -/
theorem round_trip_spec (C : Crypto) (m ctrl : Dict) (secret : Option (List Nat))
    (hctrl : dictGet (dictPop m authKey) ctrlKey = some (.table ctrl))
    (hwf : wf_message m = true)
    (hsec : dictMem (dictPop ctrl compKey) encKey = true → ∃ s, secret = some s)
    (hiv : C.iv.length = 16)
    (henclen : ∀ k x, (C.aesEnc k C.iv x).length = x.length)
    (hdecenc : ∀ k x, C.aesDec k C.iv (C.aesEnc k C.iv x) = x)
    (hdecomp : ∀ x junk, C.decompress (C.compress x ++ junk) = x)
    (hm16 : ∀ s p, (C.hmacMd5 s p).length = 16)
    (hcsz : (C.compress (encode_table (prep_message m))).length + 100 < 2 ^ 32)
    (hbsz : (encode_table (prep_message m)).length + 100 < 2 ^ 32) :
    round_trip C m secret = .ok (post_decode C m secret) := by
  obtain ⟨hwt2, hshape2, hnam, hg_ctrl, hprep⟩ := prep_message_wf m ctrl hctrl hwf
  by_cases hpe : dictMem (dictPop ctrl compKey) encKey = true
  · obtain ⟨s, hs⟩ := hsec hpe
    subst hs
    rw [round_trip_encrypted C m ctrl s hctrl hwf hpe hiv (henclen _) (hdecenc _)
      hdecomp (hm16 s) (by omega) hcsz hbsz]
    rw [post_decode]
    simp only [hg_ctrl, hpe, if_true]
  · have hpe0 : dictMem (dictPop ctrl compKey) encKey = false := by simpa using hpe
    rcases secret with _ | s
    · rw [round_trip_plain_none C m ctrl hctrl hwf hpe0, post_decode]
      simp only [hg_ctrl, hpe0, Bool.false_eq_true, if_false]
    · rw [round_trip_signed_plain C m ctrl s hctrl hwf hpe0 (hm16 s _), post_decode]
      simp only [hg_ctrl, hpe0, Bool.false_eq_true, if_false]

/-- C2: the frame round trip `from_wire(to_wire(m, s), s)` does not
return `m` up to `_enc` normalization alone: it returns `post_decode`
of `m` — `to_wire` irreversibly drops `_auth` and `_ctrl._comp`, on the
signed cleartext path `from_wire` keeps the received `_auth` signature
block in the result, and on the encrypted path `_ctrl._enc` is forced
to the string `'1'`. -/
theorem c2_round_trip (C : Crypto) (m ctrl : Dict) (secret : Option (List Nat))
    (hctrl : dictGet (dictPop m authKey) ctrlKey = some (.table ctrl))
    (hwf : wf_message m = true)
    (hsec : dictMem (dictPop ctrl compKey) encKey = true → ∃ s, secret = some s)
    (hiv : C.iv.length = 16)
    (henclen : ∀ k x, (C.aesEnc k C.iv x).length = x.length)
    (hdecenc : ∀ k x, C.aesDec k C.iv (C.aesEnc k C.iv x) = x)
    (hdecomp : ∀ x junk, C.decompress (C.compress x ++ junk) = x)
    (hm16 : ∀ s p, (C.hmacMd5 s p).length = 16)
    (hcsz : (C.compress (encode_table (prep_message m))).length + 100 < 2 ^ 32)
    (hbsz : (encode_table (prep_message m)).length + 100 < 2 ^ 32) :
    round_trip C m secret = .ok (post_decode C m secret) :=
  round_trip_spec C m ctrl secret hctrl hwf hsec hiv henclen hdecenc hdecomp
    hm16 hcsz hbsz

/-- C2 counterexample: a well-formed cleartext message whose `_ctrl`
carries a `_comp` hint round-trips to a dict that lost `_comp` — not
the original message, although no `_enc` normalization applies to it. -/
theorem c2_counterexample :
    round_trip c2Crypto compHintMsg none =
      .ok [(ctrlKey, PyVal.table [(snonKey, PyVal.bytes [49])]),
           (dataKey, PyVal.table [(typeKey, PyVal.str [97])])] ∧
    dictMem [(compKey, PyVal.bytes [49]), (snonKey, PyVal.bytes [49])] compKey
      = true ∧
    dictGet compHintMsg ctrlKey =
      some (.table [(compKey, PyVal.bytes [49]), (snonKey, PyVal.bytes [49])]) ∧
    ([(ctrlKey, PyVal.table [(snonKey, PyVal.bytes [49])]),
      (dataKey, PyVal.table [(typeKey, PyVal.str [97])])] : Dict) ≠ compHintMsg := by
  refine ⟨?_, by decide, by decide, by decide⟩
  rw [round_trip_plain_none c2Crypto compHintMsg
    [(compKey, PyVal.bytes [49]), (snonKey, PyVal.bytes [49])]
    (by decide) (by decide) (by decide)]
  rfl

theorem c2_round_trip_witness :
    round_trip c2Crypto compHintMsg none = .ok (post_decode c2Crypto compHintMsg none) ∧
    round_trip c2Crypto encCompMsg (some [107]) =
      .ok (post_decode c2Crypto encCompMsg (some [107])) :=
  ⟨c2_round_trip c2Crypto compHintMsg
      [(compKey, PyVal.bytes [49]), (snonKey, PyVal.bytes [49])] none
      (by decide) (by decide) (fun h => absurd h (by decide)) rfl
      (fun k x => rfl) (fun k x => rfl) c2Crypto_decompress
      (fun s p => rfl) (by decide) (by decide),
   c2_round_trip c2Crypto encCompMsg
      [(encKey, PyVal.bytes [49]), (compKey, PyVal.bytes [49])] (some [107])
      (by decide) (by decide) (fun h => Exists.intro [107] rfl) rfl
      (fun k x => rfl) (fun k x => rfl) c2Crypto_decompress
      (fun s p => rfl) (by decide) (by decide)⟩

end Nomcc
